import Mathlib

/-!
# advanced-vector/vector.h : RawMemory and Vector

A shallow embedding of the two class templates of `vector.h`.

* Raw storage is a list of slots. A slot is `none` while it is uninitialized
  memory and `some x` while it holds a live object of value `x`.
* A pointer into a buffer is the buffer together with an offset, so the
  standard algorithms take the slot list and the offsets of their ranges.
* `Allocate` is modelled on a `Platform`: the value of `sizeof(T)`, the product
  `n * sizeof(T)` in the 64 bits of `size_t`, and the requests that
  `operator new` refuses with `std::bad_alloc`. The operations whose allocation
  size comes from the caller, `RawMemory(n)`, `Vector(n)`, `Reserve(n)` and
  `Resize(n)`, have a form `_on` over a platform.
* `RawMemory.ctor n` is the owner that `RawMemory(n)` builds when `Allocate`
  returns storage for the `n` objects asked for. The operations that size their
  allocation from an existing vector, and the forms of `Vector(n)`, `Reserve`
  and `Resize` without a platform, describe the call whose allocation is
  granted in this way; `Reserve_on_granted`, `Resize_on_granted` and
  `ctor_size_on_granted` relate the two forms.
* Sizes and capacities are `Nat`. A buffer of `c` slots occupies at least `c`
  bytes of address space, hence `size_ * 2` cannot wrap for a vector that
  exists.
* The element type is a parameter `ElemType T`. Its copy constructor may throw
  (`copy_throws`); its move operations, its copy assignment, its value
  initialisation and the construction of the element handed to an insertion are
  taken not to throw. A move leaves `moved_from x` in its source.
* A member function returns an `Outcome`: the vector after the call (also when
  an exception leaves the call), the returned value (`none` for an exception)
  and the local `RawMemory`, if there was one, in the state in which its
  destructor released it.
* Reading a slot that holds no object is undefined behaviour in C++; the
  algorithms below then copy the empty slot. The debug `assert`s are not
  modelled; the statements carry the preconditions they check.
-/

namespace AdvVec

/-- Raw storage for objects of type `T`, slot by slot. -/
abbrev Slots (T : Type) := List (Option T)

/-- The operations of the element type `T` that the container relies on. -/
structure ElemType (T : Type) where
  /-- The value of `std::is_nothrow_move_constructible_v<T>`. -/
  nothrow_move_constructible : Bool
  /-- The value of `std::is_copy_constructible_v<T>`. -/
  copy_constructible : Bool
  /-- Whether the copy constructor throws when it copies this value. -/
  copy_throws : T → Bool
  /-- The state a move leaves in its source. -/
  moved_from : T → T
  /-- The value-initialised object `T()`. -/
  value_init : T

section Algorithms

variable {T : Type}

/-- The object read through `p[i]`, if slot `i` holds one. -/
def read (s : Slots T) (i : Nat) : Option T := s.getD i none

/-- Placement new: `new (p + i) T(x)`. -/
def construct_at (s : Slots T) (i : Nat) (x : T) : Slots T := s.set i (some x)

/-- The destructor call `p[i].~T()`, also `std::destroy_at(p + i)`. -/
def destroy_at (s : Slots T) (i : Nat) : Slots T := s.set i none

/-- The algorithm `std::destroy_n(p + first, n)`. -/
def destroy_n (s : Slots T) (first : Nat) : Nat → Slots T
  | 0 => s
  | n + 1 => destroy_n (destroy_at s first) (first + 1) n

/-- The algorithm `std::uninitialized_value_construct_n(p + first, n)`. -/
def uninitialized_value_construct_n (E : ElemType T) (s : Slots T) (first : Nat) : Nat → Slots T
  | 0 => s
  | n + 1 => uninitialized_value_construct_n E (construct_at s first E.value_init) (first + 1) n

/-- The loop of `std::uninitialized_copy_n`: `done` objects are already built at
`d_first`, `count` remain. The result is `(threw, dst)`. When a copy throws, the
objects built so far are destroyed before the exception goes on. -/
def uninitialized_copy_loop (E : ElemType T) (src : Slots T) (first : Nat) (d_first : Nat) :
    Nat → Nat → Slots T → Bool × Slots T
  | _, 0, dst => (false, dst)
  | done, count + 1, dst =>
    match read src (first + done) with
    | some x =>
      if E.copy_throws x then (true, destroy_n dst d_first done)
      else uninitialized_copy_loop E src first d_first (done + 1) count
        (construct_at dst (d_first + done) x)
    | none =>
      uninitialized_copy_loop E src first d_first (done + 1) count (dst.set (d_first + done) none)

/-- The algorithm `std::uninitialized_copy_n(src + first, count, dst + d_first)`. -/
def uninitialized_copy_n (E : ElemType T) (src : Slots T) (first count : Nat) (dst : Slots T)
    (d_first : Nat) : Bool × Slots T :=
  uninitialized_copy_loop E src first d_first 0 count dst

/-- Move construction `new (dst + j) T(std::move(src[i]))` between two buffers:
the result is `(src, dst)`. -/
def move_construct_into (E : ElemType T) (src : Slots T) (i : Nat) (dst : Slots T) (j : Nat) :
    Slots T × Slots T :=
  match read src i with
  | some x => (src.set i (some (E.moved_from x)), construct_at dst j x)
  | none => (src, dst.set j none)

/-- The loop of `std::uninitialized_move_n`, `done` objects already moved. -/
def uninitialized_move_loop (E : ElemType T) (first : Nat) (d_first : Nat) :
    Nat → Nat → Slots T → Slots T → Slots T × Slots T
  | _, 0, src, dst => (src, dst)
  | done, count + 1, src, dst =>
    let r := move_construct_into E src (first + done) dst (d_first + done)
    uninitialized_move_loop E first d_first (done + 1) count r.1 r.2

/-- The algorithm `std::uninitialized_move_n(src + first, count, dst + d_first)`,
with result `(src, dst)`. -/
def uninitialized_move_n (E : ElemType T) (src : Slots T) (first count : Nat) (dst : Slots T)
    (d_first : Nat) : Slots T × Slots T :=
  uninitialized_move_loop E first d_first 0 count src dst

/-- The algorithm `std::copy_n(src + first, count, dst + d_first)`: copy assignment,
element by element. -/
def copy_n (src : Slots T) (first : Nat) : Nat → Slots T → Nat → Slots T
  | 0, dst, _ => dst
  | count + 1, dst, d_first => copy_n src (first + 1) count (dst.set d_first (read src first)) (d_first + 1)

/-- Move within one buffer, `p[j] = std::move(p[i])` or
`new (p + j) T(std::move(p[i]))`. -/
def move_within (E : ElemType T) (s : Slots T) (i j : Nat) : Slots T :=
  match read s i with
  | some x => (s.set i (some (E.moved_from x))).set j (some x)
  | none => s.set j none

/-- The loop of `std::move_backward`: `*(--d_last) = std::move(*(--last))` while
`first != last`; `n` is `last - first`. -/
def move_backward_loop (E : ElemType T) (s : Slots T) (first : Nat) : Nat → Nat → Slots T
  | 0, _ => s
  | n + 1, d_last => move_backward_loop E (move_within E s (first + n) (d_last - 1)) first n (d_last - 1)

/-- The algorithm `std::move_backward(p + first, p + last, p + d_last)`. -/
def move_backward (E : ElemType T) (s : Slots T) (first last d_last : Nat) : Slots T :=
  move_backward_loop E s first (last - first) d_last

/-- The loop of `std::move`: `*d_first++ = std::move(*first++)` while
`first != last`; `n` is `last - first`. -/
def move_loop (E : ElemType T) : Slots T → Nat → Nat → Nat → Slots T
  | s, _, 0, _ => s
  | s, first, n + 1, d_first => move_loop E (move_within E s first d_first) (first + 1) n (d_first + 1)

/-- The algorithm `std::move(p + first, p + last, p + d_first)`. -/
def move (E : ElemType T) (s : Slots T) (first last d_first : Nat) : Slots T :=
  move_loop E s first (last - first) d_first

/-- Storage of `cap` slots of which the first `xs.length` hold the objects
`xs` and the others are uninitialized. -/
def filled (xs : List T) (cap : Nat) : Slots T :=
  xs.map some ++ List.replicate (cap - xs.length) none

/-- The test of `TransferObjectsN`: relocation moves instead of copying. -/
def ElemType.relocates_by_move (E : ElemType T) : Bool :=
  E.nothrow_move_constructible || !E.copy_constructible

/-- Relocating the objects `xs` cannot throw: they are moved, or no copy of
one of them throws. -/
def ElemType.relocatable (E : ElemType T) (xs : List T) : Prop :=
  E.relocates_by_move = true ∨ ∀ x ∈ xs, E.copy_throws x = false

end Algorithms

/-- The value of the pointer `buffer_`: null, storage obtained from `Allocate`,
or storage that was already handed to `Deallocate`. -/
inductive Buffer (T : Type) where
  | null : Buffer T
  | block (slots : Slots T) : Buffer T
  | freed : Buffer T
  deriving DecidableEq

namespace Buffer

variable {T : Type}

/-- The slots a pointer gives access to. -/
def slots : Buffer T → Slots T
  | block s => s
  | _ => []

/-- The same pointer after the storage behind it was rewritten to `s`. -/
def put : Buffer T → Slots T → Buffer T
  | block _, s => block s
  | b, _ => b

end Buffer

/-- The class template `RawMemory<T>`. -/
structure RawMemory (T : Type) where
  buffer_ : Buffer T
  capacity_ : Nat
  deriving DecidableEq

/-- The platform as `Allocate` meets it; `size_t` has 64 bits. -/
structure Platform where
  /-- The value of `sizeof(T)`. -/
  sizeof_T : Nat
  /-- Whether `operator new(bytes)` throws `std::bad_alloc`. -/
  new_throws : Nat → Bool

namespace Platform

/-- The argument `n * sizeof(T)` of `operator new`, as `size_t` computes it. -/
def request (P : Platform) (n : Nat) : Nat := n * P.sizeof_T % 2 ^ 64

/-- The number of objects of type `T` the storage of `request n` bytes has
room for. -/
def room (P : Platform) (n : Nat) : Nat := P.request n / P.sizeof_T

/-- The call `Allocate(n)` returns storage for all `n` objects: `n` is 0, or
the product `n * sizeof(T)` does not wrap and `operator new` accepts it. -/
def grants (P : Platform) (n : Nat) : Prop :=
  n = 0 ∨ (0 < P.sizeof_T ∧ n * P.sizeof_T < 2 ^ 64 ∧ P.new_throws (n * P.sizeof_T) = false)

instance (P : Platform) (n : Nat) : Decidable (P.grants n) :=
  inferInstanceAs (Decidable (n = 0 ∨ (0 < P.sizeof_T ∧ n * P.sizeof_T < 2 ^ 64 ∧
    P.new_throws (n * P.sizeof_T) = false)))

end Platform

namespace RawMemory

variable {T : Type}

/-- The static member `Allocate(n)`:
`n != 0 ? static_cast<T*>(operator new(n * sizeof(T))) : nullptr`. The result
is `none` when `operator new` throws; otherwise the storage has room for
`P.room n` objects, which is `n` unless the product wrapped. -/
def Allocate (P : Platform) (n : Nat) : Option (Buffer T) :=
  if n ≠ 0 then
    if P.new_throws (P.request n) then none
    else some (Buffer.block (List.replicate (P.room n) none))
  else some Buffer.null

/-- The static member `Deallocate(buf)`; the result is what the pointer then
refers to. -/
def Deallocate : Buffer T → Buffer T
  | Buffer.null => Buffer.null
  | _ => Buffer.freed

/-- The constructor `RawMemory() = default`. -/
def ctor_default : RawMemory T := ⟨Buffer.null, 0⟩

/-- The constructor `RawMemory(size_t capacity)` on a platform: `buffer_` is
`Allocate(capacity)` and `capacity_` is `capacity`; `none` when `Allocate`
throws. -/
def ctor_on (P : Platform) (capacity : Nat) : Option (RawMemory T) :=
  match Allocate P capacity with
  | none => none
  | some buffer_ => some ⟨buffer_, capacity⟩

/-- The owner that `RawMemory(capacity)` builds when `Allocate(capacity)` returns
storage for `capacity` objects: a null buffer for 0, else `capacity`
uninitialized slots. -/
def ctor (capacity : Nat) : RawMemory T :=
  ⟨if capacity ≠ 0 then Buffer.block (List.replicate capacity none) else Buffer.null, capacity⟩

/-- The member `Swap(other)`, as the pair `(*this, other)` after the call. -/
def Swap (self other : RawMemory T) : RawMemory T × RawMemory T :=
  (⟨other.buffer_, other.capacity_⟩, ⟨self.buffer_, self.capacity_⟩)

/-- The move constructor `RawMemory(RawMemory&& other)`: the pair
`(*this, other)` after the call. -/
def ctor_move (other : RawMemory T) : RawMemory T × RawMemory T :=
  Swap ctor_default other

/-- The move assignment `operator=(RawMemory&& rhs)` for `this != &rhs`: the
pair `(*this, rhs)` after the call. -/
def assign_move (self rhs : RawMemory T) : RawMemory T × RawMemory T :=
  Swap ⟨Deallocate self.buffer_, self.capacity_⟩ rhs

/-- The member `Capacity()`. -/
def Capacity (self : RawMemory T) : Nat := self.capacity_

/-- The storage reached through `GetAddress()`. -/
def GetAddress (self : RawMemory T) : Slots T := self.buffer_.slots

/-- The owner after the storage behind its pointer was rewritten to `s`. -/
def store (self : RawMemory T) (s : Slots T) : RawMemory T :=
  ⟨self.buffer_.put s, self.capacity_⟩

/-- The objects still alive in the storage when the destructor `~RawMemory()`
releases it; their destructors are never run. -/
def leaked (self : RawMemory T) : List T := self.GetAddress.filterMap id

/-- The owner of the storage `s` with capacity `cap`; the buffer is null when
`cap` is 0, as `Allocate` leaves it. -/
def owning (s : Slots T) (cap : Nat) : RawMemory T :=
  ⟨if cap ≠ 0 then Buffer.block s else Buffer.null, cap⟩

end RawMemory

/-- The class template `Vector<T>`. -/
structure Vector (T : Type) where
  data_ : RawMemory T
  size_ : Nat
  deriving DecidableEq

/-- What a call of a member function leaves behind. -/
structure Outcome (α : Type) (T : Type) where
  /-- The vector after the call, or after the exception left it. -/
  self : Vector T
  /-- The value returned; `none` when an exception propagates. -/
  ret : Option α
  /-- The local `RawMemory` as its destructor found it, if the call made one. -/
  released : Option (RawMemory T)
  deriving DecidableEq

/-- The result of `TransferObjectsN`: whether it threw, and both buffers. -/
structure Transfer (T : Type) where
  threw : Bool
  data : RawMemory T
  new_data : RawMemory T
  deriving DecidableEq

namespace Vector

variable {T : Type}

/-- The member `Size()`. -/
def Size (v : Vector T) : Nat := v.size_

/-- The member `Capacity()`. -/
def Capacity (v : Vector T) : Nat := v.data_.Capacity

/-- The live range `[begin(), end())` as slots. -/
def range (v : Vector T) : Slots T := v.data_.GetAddress.take v.size_

/-- The element read by `operator[](index)`. -/
def get (v : Vector T) (index : Nat) : Option T := read v.data_.GetAddress index

/-- The assignment `v[index] = x` through the reference `operator[]` returns. -/
def assign_index (v : Vector T) (index : Nat) (x : T) : Vector T :=
  ⟨v.data_.store (v.data_.GetAddress.set index (some x)), v.size_⟩

/-- The elements of the vector in order. -/
def toList (v : Vector T) : List T := v.range.filterMap id

/-- The private member `TransferObjectsN(T* data, size, T* new_data)` with
`data` at offset `first` of one buffer and `new_data` at offset `d_first` of
another. -/
def TransferObjectsN (E : ElemType T) (data : RawMemory T) (first : Nat) (size : Nat)
    (new_data : RawMemory T) (d_first : Nat) : Transfer T :=
  if size = 0 then ⟨false, data, new_data⟩
  else if E.nothrow_move_constructible || !E.copy_constructible then
    let r := uninitialized_move_n E data.GetAddress first size new_data.GetAddress d_first
    ⟨false, data.store r.1, new_data.store r.2⟩
  else
    let r := uninitialized_copy_n E data.GetAddress first size new_data.GetAddress d_first
    ⟨r.1, data, new_data.store r.2⟩

/-- The private member `TransferObjectsN(size, RawMemory<T>& new_data)`. -/
def TransferObjectsN_all (E : ElemType T) (v : Vector T) (size : Nat) (new_data : RawMemory T) :
    Transfer T :=
  TransferObjectsN E v.data_ 0 size new_data 0

/-- The constructor `Vector() = default`. -/
def ctor_default : Vector T := ⟨RawMemory.ctor_default, 0⟩

/-- The constructor `Vector(size_t size)` when the allocation of `data_` is
granted. -/
def ctor_size (E : ElemType T) (size : Nat) : Vector T :=
  let data_ : RawMemory T := RawMemory.ctor size
  ⟨data_.store (uninitialized_value_construct_n E data_.GetAddress 0 size), size⟩

/-- The constructor `Vector(size_t size)` on a platform; `none` when the
allocation of `data_` throws. -/
def ctor_size_on (P : Platform) (E : ElemType T) (size : Nat) : Option (Vector T) :=
  match RawMemory.ctor_on P size with
  | none => none
  | some data_ =>
    some ⟨data_.store (uninitialized_value_construct_n E data_.GetAddress 0 size), size⟩

/-- The copy constructor `Vector(const Vector& other)`: the new vector, or, when
a copy throws, the member `data_` as its destructor releases it. -/
def ctor_copy (E : ElemType T) (other : Vector T) : Except (RawMemory T) (Vector T) :=
  let data_ : RawMemory T := RawMemory.ctor other.size_
  let r := uninitialized_copy_n E other.data_.GetAddress 0 other.size_ data_.GetAddress 0
  if r.1 then Except.error (data_.store r.2) else Except.ok ⟨data_.store r.2, other.size_⟩

/-- The move constructor `Vector(Vector&& other)`: the pair `(*this, other)`. -/
def ctor_move (other : Vector T) : Vector T × Vector T :=
  let d := RawMemory.ctor_move other.data_
  (⟨d.1, other.size_⟩, ⟨d.2, 0⟩)

/-- The destructor `~Vector()`: the member `data_` as it is released. -/
def dtor (v : Vector T) : RawMemory T :=
  v.data_.store (destroy_n v.data_.GetAddress 0 v.size_)

/-- The member `Swap(other)`: the pair `(*this, other)` after the call. -/
def Swap (self other : Vector T) : Vector T × Vector T :=
  let d := self.data_.Swap other.data_
  (⟨d.1, other.size_⟩, ⟨d.2, self.size_⟩)

/-- The copy assignment `operator=(const Vector& rhs)` for `this != &rhs`;
`rhs` is not modified. -/
def assign_copy (E : ElemType T) (self rhs : Vector T) : Outcome Unit T :=
  if rhs.size_ > self.data_.Capacity then
    match ctor_copy E rhs with
    | Except.error d => ⟨self, none, some d⟩
    | Except.ok rhs_copy =>
      let p := self.Swap rhs_copy
      ⟨p.1, some (), some p.2.dtor⟩
  else
    let s := copy_n rhs.data_.GetAddress 0 (min self.size_ rhs.size_) self.data_.GetAddress 0
    if rhs.size_ < self.size_ then
      ⟨⟨self.data_.store (destroy_n s rhs.size_ (self.size_ - rhs.size_)), rhs.size_⟩, some (), none⟩
    else
      let r := uninitialized_copy_n E rhs.data_.GetAddress self.size_ (rhs.size_ - self.size_) s
        self.size_
      if r.1 then ⟨⟨self.data_.store r.2, self.size_⟩, none, none⟩
      else ⟨⟨self.data_.store r.2, rhs.size_⟩, some (), none⟩

/-- The copy assignment in the case `this == &rhs`. -/
def assign_copy_self (self : Vector T) : Vector T := self

/-- The move assignment `operator=(Vector&& rhs)` for `this != &rhs`: the pair
`(*this, rhs)` after the call. -/
def assign_move (self rhs : Vector T) : Vector T × Vector T :=
  self.Swap rhs

/-- The move assignment in the case `this == &rhs`. -/
def assign_move_self (self : Vector T) : Vector T := self

/-- The member `Reserve(new_capacity)` when the allocation of `new_data` is
granted. -/
def Reserve (E : ElemType T) (v : Vector T) (new_capacity : Nat) : Outcome Unit T :=
  if new_capacity ≤ v.data_.Capacity then ⟨v, some (), none⟩
  else
    let new_data : RawMemory T := RawMemory.ctor new_capacity
    let t := TransferObjectsN_all E v v.size_ new_data
    if t.threw then ⟨⟨t.data, v.size_⟩, none, some t.new_data⟩
    else
      let data := t.data.store (destroy_n t.data.GetAddress 0 v.size_)
      let p := data.Swap t.new_data
      ⟨⟨p.1, v.size_⟩, some (), some p.2⟩

/-- The member `Reserve(new_capacity)` on a platform. When the allocation of
`new_data` throws, the exception leaves the call before anything else is
done. -/
def Reserve_on (P : Platform) (E : ElemType T) (v : Vector T) (new_capacity : Nat) :
    Outcome Unit T :=
  if new_capacity ≤ v.data_.Capacity then ⟨v, some (), none⟩
  else
    match RawMemory.ctor_on P new_capacity with
    | none => ⟨v, none, none⟩
    | some new_data =>
      let t := TransferObjectsN_all E v v.size_ new_data
      if t.threw then ⟨⟨t.data, v.size_⟩, none, some t.new_data⟩
      else
        let data := t.data.store (destroy_n t.data.GetAddress 0 v.size_)
        let p := data.Swap t.new_data
        ⟨⟨p.1, v.size_⟩, some (), some p.2⟩

/-- The member `Resize(new_size)` when the allocation `Reserve` may make is
granted. -/
def Resize (E : ElemType T) (v : Vector T) (new_size : Nat) : Outcome Unit T :=
  if new_size < v.size_ then
    ⟨⟨v.data_.store (destroy_n v.data_.GetAddress new_size (v.size_ - new_size)), new_size⟩,
      some (), none⟩
  else if new_size > v.size_ then
    let r := v.Reserve E new_size
    match r.ret with
    | none => r
    | some _ =>
      let w := r.self
      ⟨⟨w.data_.store (uninitialized_value_construct_n E w.data_.GetAddress w.size_
          (new_size - w.size_)), new_size⟩, some (), r.released⟩
  else ⟨⟨v.data_, new_size⟩, some (), none⟩

/-- The member `Resize(new_size)` on a platform. -/
def Resize_on (P : Platform) (E : ElemType T) (v : Vector T) (new_size : Nat) :
    Outcome Unit T :=
  if new_size < v.size_ then
    ⟨⟨v.data_.store (destroy_n v.data_.GetAddress new_size (v.size_ - new_size)), new_size⟩,
      some (), none⟩
  else if new_size > v.size_ then
    let r := v.Reserve_on P E new_size
    match r.ret with
    | none => r
    | some _ =>
      let w := r.self
      ⟨⟨w.data_.store (uninitialized_value_construct_n E w.data_.GetAddress w.size_
          (new_size - w.size_)), new_size⟩, some (), r.released⟩
  else ⟨⟨v.data_, new_size⟩, some (), none⟩

/-- The member `EmplaceBack(args...)`, where `x` is the object `T(args...)`; the
returned reference `data_[size_ - 1]` is given by its index. -/
def EmplaceBack (E : ElemType T) (v : Vector T) (x : T) : Outcome Nat T :=
  if v.size_ = v.Capacity then
    let new_data : RawMemory T := RawMemory.ctor (if v.size_ = 0 then 1 else v.size_ * 2)
    let new_data := new_data.store (construct_at new_data.GetAddress v.size_ x)
    let t := TransferObjectsN_all E v v.size_ new_data
    if t.threw then ⟨⟨t.data, v.size_⟩, none, some t.new_data⟩
    else
      let data := t.data.store (destroy_n t.data.GetAddress 0 v.size_)
      let p := data.Swap t.new_data
      ⟨⟨p.1, v.size_ + 1⟩, some (v.size_ + 1 - 1), some p.2⟩
  else
    ⟨⟨v.data_.store (construct_at v.data_.GetAddress v.size_ x), v.size_ + 1⟩,
      some (v.size_ + 1 - 1), none⟩

/-- The member `PushBack(value)`, where `x` is the object built from `value`. -/
def PushBack (E : ElemType T) (v : Vector T) (x : T) : Outcome Unit T :=
  if v.size_ = v.Capacity then
    let new_data : RawMemory T := RawMemory.ctor (if v.size_ = 0 then 1 else v.size_ * 2)
    let new_data := new_data.store (construct_at new_data.GetAddress v.size_ x)
    let t := TransferObjectsN_all E v v.size_ new_data
    if t.threw then ⟨⟨t.data, v.size_⟩, none, some t.new_data⟩
    else
      let data := t.data.store (destroy_n t.data.GetAddress 0 v.size_)
      let p := data.Swap t.new_data
      ⟨⟨p.1, v.size_ + 1⟩, some (), some p.2⟩
  else
    ⟨⟨v.data_.store (construct_at v.data_.GetAddress v.size_ x), v.size_ + 1⟩, some (), none⟩

/-- The local `new_data` of the growth path of `Emplace` after the placement
`new (new_data + pos_idx) T(args...)`. -/
def Emplace_new_data (v : Vector T) (pos_idx : Nat) (x : T) : RawMemory T :=
  let new_data : RawMemory T := RawMemory.ctor (if v.size_ = 0 then 1 else v.size_ * 2)
  new_data.store (construct_at new_data.GetAddress pos_idx x)

/-- The first `try` block of `Emplace`: the relocation of `[begin(), pos)`. -/
def Emplace_try_first (E : ElemType T) (v : Vector T) (pos_idx : Nat) (x : T) : Transfer T :=
  TransferObjectsN E v.data_ 0 pos_idx (Emplace_new_data v pos_idx x) 0

/-- The second `try` block of `Emplace`: the relocation of `[pos, end())` behind
the new element. -/
def Emplace_try_second (E : ElemType T) (v : Vector T) (pos_idx : Nat) (x : T) : Transfer T :=
  let t := Emplace_try_first E v pos_idx x
  TransferObjectsN E t.data pos_idx (v.size_ - pos_idx) t.new_data (pos_idx + 1)

/-- The member `Emplace(pos, args...)` with `pos = begin() + pos_idx` and `x` the
object `T(args...)`; the returned iterator is given by its offset from
`begin()` of the vector after the call. Each `catch (...)` destroys what its
handler names and rethrows. -/
def Emplace (E : ElemType T) (v : Vector T) (pos_idx : Nat) (x : T) : Outcome Nat T :=
  if pos_idx = v.size_ then v.EmplaceBack E x
  else if v.size_ = v.Capacity then
    let t := Emplace_try_first E v pos_idx x
    if t.threw then
      ⟨⟨t.data, v.size_⟩, none, some (t.new_data.store (destroy_at t.new_data.GetAddress pos_idx))⟩
    else
      let u := Emplace_try_second E v pos_idx x
      if u.threw then
        ⟨⟨u.data, v.size_⟩, none,
          some (u.new_data.store (destroy_n u.new_data.GetAddress 0 (pos_idx + 1)))⟩
      else
        let data := u.data.store (destroy_n u.data.GetAddress 0 v.size_)
        let p := data.Swap u.new_data
        ⟨⟨p.1, v.size_ + 1⟩, some pos_idx, some p.2⟩
  else
    let copy := x
    let s := move_within E v.data_.GetAddress (v.size_ - 1) v.size_
    let s := move_backward E s pos_idx (v.size_ - 1) v.size_
    let s := s.set pos_idx (some copy)
    ⟨⟨v.data_.store s, v.size_ + 1⟩, some pos_idx, none⟩

/-- The member `Insert(pos, value)`. -/
def Insert (E : ElemType T) (v : Vector T) (pos_idx : Nat) (x : T) : Outcome Nat T :=
  v.Emplace E pos_idx x

/-- The member `Erase(pos)` with `pos = begin() + pos_idx`; the returned
iterator is given by its offset from `begin()`. -/
def Erase (E : ElemType T) (v : Vector T) (pos_idx : Nat) : Outcome Nat T :=
  let s := move E v.data_.GetAddress (pos_idx + 1) v.size_ pos_idx
  let s := destroy_at s (v.size_ - 1)
  ⟨⟨v.data_.store s, v.size_ - 1⟩, some pos_idx, none⟩

/-- The member `PopBack()`. -/
def PopBack (v : Vector T) : Vector T :=
  ⟨v.data_.store (destroy_at v.data_.GetAddress (v.size_ - 1)), v.size_ - 1⟩

/-- The vector that holds the elements `xs` in storage of `cap` slots: size
`xs.length`, capacity `cap`, the first `xs.length` slots live, the others
uninitialized, and a null buffer when `cap` is 0. For `xs.length <= cap` these
are the vectors that satisfy the class invariant (`well_formed_iff_holding`). -/
def holding (xs : List T) (cap : Nat) : Vector T :=
  ⟨RawMemory.owning (filled xs cap) cap, xs.length⟩

/-- Calls `PushBack` for every element of the list in turn; `none` when one of
the calls throws. -/
def push_all (E : ElemType T) : Vector T → List T → Option (Vector T)
  | v, [] => some v
  | v, x :: xs =>
    match (v.PushBack E x).ret with
    | some _ => push_all E (v.PushBack E x).self xs
    | none => none

end Vector

/-- An element type like `int`: its moves and copies never throw. -/
def int_like : ElemType Nat := ⟨true, true, fun _ => false, id, 0⟩

/-- An element type whose copy constructor throws when it copies the value
`bad` and whose move constructor is not `noexcept`, so that relocation copies. -/
def throwing_copy (bad : Nat) : ElemType Nat := ⟨false, true, fun x => x == bad, id, 0⟩

/-- A platform for 4-byte objects on which `operator new` refuses every request
of `2 ^ 63` bytes or more. -/
def int32_platform : Platform := ⟨4, fun bytes => decide (2 ^ 63 ≤ bytes)⟩

/-- The invariant `size_ <= Capacity()`. -/
def Vector.size_le_capacity {T : Type} (v : Vector T) : Prop := v.Size ≤ v.Capacity

instance {T : Type} (v : Vector T) : Decidable v.size_le_capacity :=
  inferInstanceAs (Decidable (v.Size ≤ v.Capacity))

/-- The capacity after `n` further calls of `PushBack` on a vector of the given
capacity and size, none of which throws. -/
def capacity_after (cap size : Nat) : Nat → Nat
  | 0 => cap
  | n + 1 => capacity_after (if size = cap then max 1 (2 * cap) else cap) (size + 1) n

/-- The capacity `c` is 0 for `n = 0` and otherwise the smallest power of two
that is at least `n`. -/
def tight (n c : Nat) : Prop :=
  (n = 0 ∧ c = 0) ∨ (0 < n ∧ ∃ k, c = 2 ^ k ∧ n ≤ 2 ^ k ∧ (k = 0 ∨ 2 ^ (k - 1) < n))

/-- The scenario's vector: `Vector<int> v(3)`, then `v[0] = 1; v[1] = 2; v[2] = 3`. -/
def scenario_start : Vector Nat :=
  (((Vector.ctor_size int_like 3).assign_index 0 1).assign_index 1 2).assign_index 2 3

/-- The scenario after `v.Insert(v.begin() + 1, 9)`. -/
def scenario_inserted : Vector Nat := (scenario_start.Insert int_like 1 9).self

/-- The scenario after `v.Erase(v.begin())`. -/
def scenario_erased : Vector Nat := (scenario_inserted.Erase int_like 0).self

/-- The scenario after `v.PushBack(7)`. -/
def scenario_pushed : Vector Nat := (scenario_erased.PushBack int_like 7).self

/-- The class invariant of `Vector`: `size_ <= capacity_`; the buffer is null
when the capacity is 0 and otherwise has `capacity_` slots, of which the first
`size_` hold live objects and the others are uninitialized. -/
def Vector.well_formed {T : Type} (v : Vector T) : Prop :=
  v.size_ ≤ v.data_.capacity_ ∧
  ((v.data_.capacity_ = 0 ∧ v.data_.buffer_ = Buffer.null) ∨
    (v.data_.capacity_ ≠ 0 ∧ ∃ s, v.data_.buffer_ = Buffer.block s ∧
      s.length = v.data_.capacity_ ∧
      (∀ k, k < v.size_ → ∃ x, s[k]? = some (some x)) ∧
      (∀ k, v.size_ ≤ k → k < v.data_.capacity_ → s[k]? = some none)))

section SlotLemmas
variable {T : Type}

theorem read_eq_getElem? (s : Slots T) (i : Nat) : read s i = (s[i]?).getD none := by
  simp [read, List.getD_eq_getElem?_getD]

@[simp] theorem length_construct_at (s : Slots T) (i : Nat) (x : T) :
    (construct_at s i x).length = s.length := by simp [construct_at]

@[simp] theorem length_destroy_at (s : Slots T) (i : Nat) :
    (destroy_at s i).length = s.length := by simp [destroy_at]

@[simp] theorem length_destroy_n (s : Slots T) (first n : Nat) :
    (destroy_n s first n).length = s.length := by
  induction n generalizing s first with
  | zero => rfl
  | succ n ih => simp [destroy_n, ih]

theorem getElem?_destroy_n (s : Slots T) (first n k : Nat) :
    (destroy_n s first n)[k]? =
      if first ≤ k ∧ k < first + n ∧ k < s.length then some none else s[k]? := by
  induction n generalizing s first with
  | zero =>
    rw [if_neg (by omega)]; rfl
  | succ n ih =>
    simp only [destroy_n, ih, length_destroy_at, destroy_at, List.getElem?_set]
    by_cases h1 : first = k
    · subst h1
      by_cases h2 : first < s.length
      · simp [h2]
      · have h3 : s[first]? = none := List.getElem?_eq_none (by omega)
        simp [h2, h3]
    · by_cases h2 : first ≤ k ∧ k < first + (n + 1) ∧ k < s.length
      · have : first + 1 ≤ k ∧ k < first + 1 + n ∧ k < s.length := by omega
        simp [h2, this]
      · have : ¬ (first + 1 ≤ k ∧ k < first + 1 + n ∧ k < s.length) := by omega
        simp [h2, this, h1]

@[simp] theorem length_uninitialized_value_construct_n (E : ElemType T) (s : Slots T)
    (first n : Nat) : (uninitialized_value_construct_n E s first n).length = s.length := by
  induction n generalizing s first with
  | zero => rfl
  | succ n ih => simp [uninitialized_value_construct_n, ih]

theorem getElem?_uninitialized_value_construct_n (E : ElemType T) (s : Slots T)
    (first n k : Nat) :
    (uninitialized_value_construct_n E s first n)[k]? =
      if first ≤ k ∧ k < first + n ∧ k < s.length then some (some E.value_init) else s[k]? := by
  induction n generalizing s first with
  | zero =>
    rw [if_neg (by omega)]; rfl
  | succ n ih =>
    simp only [uninitialized_value_construct_n, ih, length_construct_at, construct_at,
      List.getElem?_set]
    by_cases h1 : first = k
    · subst h1
      by_cases h2 : first < s.length
      · simp [h2]
      · have h3 : s[first]? = none := List.getElem?_eq_none (by omega)
        simp [h2, h3]
    · by_cases h2 : first ≤ k ∧ k < first + (n + 1) ∧ k < s.length
      · have : first + 1 ≤ k ∧ k < first + 1 + n ∧ k < s.length := by omega
        simp [h2, this]
      · have : ¬ (first + 1 ≤ k ∧ k < first + 1 + n ∧ k < s.length) := by omega
        simp [h2, this, h1]

@[simp] theorem length_uninitialized_copy_loop (E : ElemType T) (src : Slots T)
    (first d_first done count : Nat) (dst : Slots T) :
    (uninitialized_copy_loop E src first d_first done count dst).2.length = dst.length := by
  induction count generalizing done dst with
  | zero => rfl
  | succ n ih =>
    simp only [uninitialized_copy_loop]
    split
    · split
      · simp
      · simp [ih]
    · simp [ih]

theorem uninitialized_copy_loop_ok (E : ElemType T) (src : Slots T)
    (first d_first done count : Nat) (dst : Slots T)
    (h : ∀ j, done ≤ j → j < done + count → ∀ x, read src (first + j) = some x →
      E.copy_throws x = false) :
    (uninitialized_copy_loop E src first d_first done count dst).1 = false ∧
    ∀ k, (uninitialized_copy_loop E src first d_first done count dst).2[k]? =
      if d_first + done ≤ k ∧ k < d_first + done + count ∧ k < dst.length
      then some (read src (first + (k - d_first))) else dst[k]? := by
  induction count generalizing done dst with
  | zero =>
    refine ⟨rfl, fun k => ?_⟩
    rw [if_neg (by omega)]; rfl
  | succ n ih =>
    have hstep : ∀ v : Option T, v = read src (first + done) →
        ((uninitialized_copy_loop E src first d_first (done + 1) n
            (dst.set (d_first + done) v)).1 = false ∧
        ∀ k, (uninitialized_copy_loop E src first d_first (done + 1) n
            (dst.set (d_first + done) v)).2[k]? =
          if d_first + done ≤ k ∧ k < d_first + done + (n + 1) ∧ k < dst.length
          then some (read src (first + (k - d_first))) else dst[k]?) := by
      intro v hv
      have ih2 := ih (done + 1) (dst.set (d_first + done) v)
        (fun j h1 h2 => h j (by omega) (by omega))
      refine ⟨ih2.1, fun k => ?_⟩
      rw [ih2.2 k, List.length_set, List.getElem?_set]
      by_cases h1 : d_first + done = k
      · subst h1
        have e : d_first + done - d_first = done := by omega
        by_cases h2 : d_first + done < dst.length
        · simp [h2, hv, e]
        · have h3 : dst[d_first + done]? = none := List.getElem?_eq_none (by omega)
          simp [h2, h3]
      · by_cases h2 : d_first + done ≤ k ∧ k < d_first + done + (n + 1) ∧ k < dst.length
        · have : d_first + (done + 1) ≤ k ∧ k < d_first + (done + 1) + n ∧ k < dst.length := by
            omega
          simp [h2, this]
        · have : ¬ (d_first + (done + 1) ≤ k ∧ k < d_first + (done + 1) + n ∧ k < dst.length) := by
            omega
          simp [h2, this, h1]
    simp only [uninitialized_copy_loop]
    split
    · rename_i x hx
      have hx2 := h done (le_refl _) (by omega) x hx
      simp only [hx2, Bool.false_eq_true, if_false, construct_at]
      exact hstep (some x) hx.symm
    · rename_i hx
      exact hstep none hx.symm


theorem read_set (s : Slots T) (i k : Nat) (v : Option T) :
    read (s.set i v) k = if i = k ∧ i < s.length then v else read s k := by
  simp only [read_eq_getElem?, List.getElem?_set]
  by_cases h1 : i = k
  · subst h1
    by_cases h2 : i < s.length
    · simp [h2]
    · have h3 : s[i]? = none := List.getElem?_eq_none (by omega)
      simp [h2, h3]
  · simp [h1]

theorem read_of_getElem? (s : Slots T) (i : Nat) (h : i < s.length) :
    s[i]? = some (read s i) := by
  rw [read_eq_getElem?, List.getElem?_eq_getElem h]; rfl

theorem destroy_n_set_last (s : Slots T) (d_first done : Nat) (v : Option T)
    (h : read s (d_first + done) = none) :
    destroy_n (s.set (d_first + done) v) d_first (done + 1) = destroy_n s d_first done := by
  apply List.ext_getElem?
  intro k
  rw [getElem?_destroy_n, getElem?_destroy_n, List.length_set, List.getElem?_set]
  by_cases h1 : d_first + done = k
  · subst h1
    by_cases h2 : d_first + done < s.length
    · have h3 := read_of_getElem? s _ h2
      rw [h] at h3
      rw [if_pos (by omega), if_neg (by omega), h3]
    · simp [h2, List.getElem?_eq_none (Nat.le_of_not_lt h2)]
  · by_cases h2 : d_first ≤ k ∧ k < d_first + done ∧ k < s.length
    · rw [if_pos (by omega), if_pos h2]
    · rw [if_neg (by omega), if_neg h2, if_neg h1]

theorem uninitialized_copy_loop_threw (E : ElemType T) (src : Slots T)
    (first d_first done count : Nat) (dst : Slots T)
    (hthrew : (uninitialized_copy_loop E src first d_first done count dst).1 = true)
    (hraw : ∀ k, d_first + done ≤ k → k < d_first + done + count → read dst k = none) :
    (uninitialized_copy_loop E src first d_first done count dst).2 =
      destroy_n dst d_first done := by
  induction count generalizing done dst with
  | zero => simp [uninitialized_copy_loop] at hthrew
  | succ n ih =>
    have hstep : ∀ v : Option T,
        (uninitialized_copy_loop E src first d_first (done + 1) n
            (dst.set (d_first + done) v)).1 = true →
        (uninitialized_copy_loop E src first d_first (done + 1) n
            (dst.set (d_first + done) v)).2 = destroy_n dst d_first done := by
      intro v hv
      rw [ih (done + 1) (dst.set (d_first + done) v) hv]
      · exact destroy_n_set_last dst d_first done v (hraw _ (le_refl _) (by omega))
      · intro k h1 h2
        rw [read_set, if_neg (by omega)]
        exact hraw k (by omega) (by omega)
    simp only [uninitialized_copy_loop] at hthrew ⊢
    split at hthrew
    · rename_i x hx
      by_cases hc : E.copy_throws x = true
      · simp [hc]
      · simp only [hc, if_false, construct_at] at hthrew ⊢
        exact hstep (some x) hthrew
    · exact hstep none hthrew

theorem uninitialized_copy_loop_throws (E : ElemType T) (src : Slots T)
    (first d_first done count : Nat) (dst : Slots T)
    (h : ∃ j, done ≤ j ∧ j < done + count ∧ ∃ x, read src (first + j) = some x ∧
      E.copy_throws x = true) :
    (uninitialized_copy_loop E src first d_first done count dst).1 = true := by
  induction count generalizing done dst with
  | zero => obtain ⟨j, h1, h2, _⟩ := h; omega
  | succ n ih =>
    obtain ⟨j, h1, h2, x, hx, hc⟩ := h
    simp only [uninitialized_copy_loop]
    by_cases hj : j = done
    · subst hj
      simp [hx, hc]
    · have hrec : ∀ d : Slots T,
          (uninitialized_copy_loop E src first d_first (done + 1) n d).1 = true :=
        fun d => ih (done + 1) d ⟨j, by omega, by omega, x, hx, hc⟩
      split
      · split
        · rfl
        · exact hrec _
      · exact hrec _

@[simp] theorem length_uninitialized_move_loop_dst (E : ElemType T)
    (first d_first done count : Nat) (src dst : Slots T) :
    (uninitialized_move_loop E first d_first done count src dst).2.length = dst.length := by
  induction count generalizing done src dst with
  | zero => rfl
  | succ n ih =>
    simp only [uninitialized_move_loop, ih, move_construct_into]
    split <;> simp [construct_at]

@[simp] theorem length_uninitialized_move_loop_src (E : ElemType T)
    (first d_first done count : Nat) (src dst : Slots T) :
    (uninitialized_move_loop E first d_first done count src dst).1.length = src.length := by
  induction count generalizing done src dst with
  | zero => rfl
  | succ n ih =>
    simp only [uninitialized_move_loop, ih, move_construct_into]
    split <;> simp

theorem move_construct_into_eq (E : ElemType T) (src : Slots T) (i : Nat) (dst : Slots T)
    (j : Nat) :
    move_construct_into E src i dst j =
      (src.set i ((read src i).map E.moved_from), dst.set j (read src i)) := by
  unfold move_construct_into
  split
  · rename_i x hx
    simp [hx, construct_at]
  · rename_i hx
    simp only [hx, Option.map_none', Prod.mk.injEq, and_true]
    apply List.ext_getElem?
    intro k
    rw [List.getElem?_set]
    by_cases h1 : i = k
    · subst h1
      by_cases h2 : i < src.length
      · have h3 := read_of_getElem? src i h2
        rw [hx] at h3
        simp [h2, h3]
      · simp [h2, List.getElem?_eq_none (Nat.le_of_not_lt h2)]
    · simp [h1]

theorem uninitialized_move_loop_dst (E : ElemType T) (first d_first done count : Nat)
    (src dst : Slots T) (k : Nat) :
    (uninitialized_move_loop E first d_first done count src dst).2[k]? =
      if d_first + done ≤ k ∧ k < d_first + done + count ∧ k < dst.length
      then some (read src (first + (k - d_first))) else dst[k]? := by
  induction count generalizing done src dst with
  | zero => rw [if_neg (by omega)]; rfl
  | succ n ih =>
    simp only [uninitialized_move_loop, move_construct_into_eq, ih, List.length_set,
      List.getElem?_set]
    by_cases h1 : d_first + done = k
    · subst h1
      have e : d_first + done - d_first = done := by omega
      by_cases h2 : d_first + done < dst.length
      · rw [if_neg (by omega), if_pos rfl, if_pos h2, if_pos (by omega), e]
      · rw [if_neg (by omega), if_pos rfl, if_neg h2, if_neg (by omega),
          List.getElem?_eq_none (by omega)]
    · by_cases h2 : d_first + done ≤ k ∧ k < d_first + done + (n + 1) ∧ k < dst.length
      · rw [if_pos (by omega), if_pos h2, read_set, if_neg (by omega)]
      · rw [if_neg (by omega), if_neg h1, if_neg h2]


theorem uninitialized_move_loop_src (E : ElemType T) (first d_first done count : Nat)
    (src dst : Slots T) (k : Nat) (hk : k < first + done ∨ first + done + count ≤ k) :
    (uninitialized_move_loop E first d_first done count src dst).1[k]? = src[k]? := by
  induction count generalizing done src dst with
  | zero => rfl
  | succ n ih =>
    simp only [uninitialized_move_loop, move_construct_into_eq]
    rw [ih _ _ _ (by omega), List.getElem?_set, if_neg (by omega)]

theorem set_none_of_read (s : Slots T) (i : Nat) (h : read s i = none) : s.set i none = s := by
  apply List.ext_getElem?
  intro k
  rw [List.getElem?_set]
  by_cases h1 : i = k
  · subst h1
    by_cases h2 : i < s.length
    · have h3 := read_of_getElem? s i h2
      rw [h] at h3
      simp [h2, h3]
    · simp [h2, List.getElem?_eq_none (Nat.le_of_not_lt h2)]
  · simp [h1]

theorem move_within_eq (E : ElemType T) (s : Slots T) (i j : Nat) :
    move_within E s i j = (s.set i ((read s i).map E.moved_from)).set j (read s i) := by
  unfold move_within
  cases hx : read s i with
  | some x => simp
  | none => simp [set_none_of_read s i hx]

@[simp] theorem length_move_within (E : ElemType T) (s : Slots T) (i j : Nat) :
    (move_within E s i j).length = s.length := by
  simp [move_within_eq]

theorem getElem?_move_within (E : ElemType T) (s : Slots T) (i j k : Nat) :
    (move_within E s i j)[k]? =
      if j = k ∧ j < s.length then some (read s i)
      else if i = k ∧ i < s.length then some ((read s i).map E.moved_from) else s[k]? := by
  rw [move_within_eq, List.getElem?_set, List.length_set, List.getElem?_set]
  by_cases h1 : j = k
  · subst h1
    by_cases h2 : j < s.length
    · simp [h2]
    · have h3 : s[j]? = none := List.getElem?_eq_none (Nat.le_of_not_lt h2)
      have h4 : ¬ (i = j ∧ i < s.length) := by omega
      simp [h2, h3, h4]
  · by_cases h3 : i = k
    · subst h3
      by_cases h4 : i < s.length
      · simp [h1, h4]
      · have h5 : s[i]? = none := List.getElem?_eq_none (Nat.le_of_not_lt h4)
        simp [h1, h4, h5]
    · simp [h1, h3]

theorem read_move_within (E : ElemType T) (s : Slots T) (i j k : Nat) (hj : j ≠ k)
    (hi : i ≠ k) : read (move_within E s i j) k = read s k := by
  rw [read_eq_getElem?, read_eq_getElem?, getElem?_move_within,
    if_neg (show ¬ (j = k ∧ j < s.length) by omega),
    if_neg (show ¬ (i = k ∧ i < s.length) by omega)]

@[simp] theorem length_move_backward_loop (E : ElemType T) (s : Slots T) (first n d_last : Nat) :
    (move_backward_loop E s first n d_last).length = s.length := by
  induction n generalizing s d_last with
  | zero => rfl
  | succ n ih => simp [move_backward_loop, ih]

theorem getElem?_move_backward_loop (E : ElemType T) (s : Slots T) (first n k : Nat)
    (hlen : first + n < s.length) :
    (move_backward_loop E s first n (first + n + 1))[k]? =
      if first < k ∧ k ≤ first + n then some (read s (k - 1))
      else if k = first ∧ 0 < n then some ((read s first).map E.moved_from) else s[k]? := by
  induction n generalizing s with
  | zero =>
    rw [if_neg (show ¬ (first < k ∧ k ≤ first + 0) by omega),
      if_neg (show ¬ (k = first ∧ 0 < 0) by omega)]
    rfl
  | succ n ih =>
    have e : first + (n + 1) + 1 - 1 = first + n + 1 := by omega
    simp only [move_backward_loop, e]
    rw [ih _ (by simpa using (by omega : first + n < s.length))]
    by_cases h1 : first < k ∧ k ≤ first + n
    · rw [if_pos h1, if_pos (show first < k ∧ k ≤ first + (n + 1) by omega),
        read_move_within E s _ _ _ (by omega) (by omega)]
    · rw [if_neg h1]
      by_cases h2 : k = first + n + 1
      · rw [if_neg (show ¬ (k = first ∧ 0 < n) by omega),
          if_pos (show first < k ∧ k ≤ first + (n + 1) by omega), getElem?_move_within,
          if_pos (show first + n + 1 = k ∧ first + n + 1 < s.length by omega)]
        subst h2
        simp
      · rw [if_neg (show ¬ (first < k ∧ k ≤ first + (n + 1)) by omega)]
        by_cases h3 : k = first
        · rw [if_pos (show k = first ∧ 0 < n + 1 by omega)]
          by_cases h4 : 0 < n
          · rw [if_pos ⟨h3, h4⟩, read_move_within E s _ _ _ (by omega) (by omega)]
          · have h5 : n = 0 := by omega
            subst h5
            rw [if_neg (show ¬ (k = first ∧ 0 < 0) by omega), getElem?_move_within,
              if_neg (show ¬ (first + 0 + 1 = k ∧ first + 0 + 1 < s.length) by omega),
              if_pos (show first + 0 = k ∧ first + 0 < s.length by omega)]
            simp
        · rw [if_neg (show ¬ (k = first ∧ 0 < n) by omega),
            if_neg (show ¬ (k = first ∧ 0 < n + 1) by omega), getElem?_move_within,
            if_neg (show ¬ (first + n + 1 = k ∧ first + n + 1 < s.length) by omega),
            if_neg (show ¬ (first + n = k ∧ first + n < s.length) by omega)]

@[simp] theorem length_move_loop (E : ElemType T) (s : Slots T) (first n d_first : Nat) :
    (move_loop E s first n d_first).length = s.length := by
  induction n generalizing s first d_first with
  | zero => rfl
  | succ n ih => simp [move_loop, ih]

theorem getElem?_move_loop (E : ElemType T) (s : Slots T) (d n k : Nat)
    (hlen : d + n < s.length) :
    (move_loop E s (d + 1) n d)[k]? =
      if d ≤ k ∧ k < d + n then some (read s (k + 1))
      else if k = d + n ∧ 0 < n then some ((read s k).map E.moved_from) else s[k]? := by
  induction n generalizing s d with
  | zero =>
    rw [if_neg (show ¬ (d ≤ k ∧ k < d + 0) by omega),
      if_neg (show ¬ (k = d + 0 ∧ 0 < 0) by omega)]
    rfl
  | succ n ih =>
    simp only [move_loop]
    rw [ih _ (d + 1) (by simpa using (by omega : d + 1 + n < s.length))]
    by_cases h1 : d + 1 ≤ k ∧ k < d + 1 + n
    · rw [if_pos h1, if_pos (show d ≤ k ∧ k < d + (n + 1) by omega),
        read_move_within E s _ _ _ (by omega) (by omega)]
    · rw [if_neg h1]
      by_cases h2 : k = d
      · rw [if_neg (show ¬ (k = d + 1 + n ∧ 0 < n) by omega),
          if_pos (show d ≤ k ∧ k < d + (n + 1) by omega), getElem?_move_within,
          if_pos (show d = k ∧ d < s.length by omega)]
        subst h2
        rfl
      · rw [if_neg (show ¬ (d ≤ k ∧ k < d + (n + 1)) by omega)]
        by_cases h3 : k = d + 1 + n
        · rw [if_pos (show k = d + (n + 1) ∧ 0 < n + 1 by omega)]
          by_cases h4 : 0 < n
          · rw [if_pos ⟨h3, h4⟩, read_move_within E s _ _ _ (by omega) (by omega)]
          · have h5 : n = 0 := by omega
            subst h5
            rw [if_neg (show ¬ (k = d + 1 + 0 ∧ 0 < 0) by omega), getElem?_move_within,
              if_neg (show ¬ (d = k ∧ d < s.length) by omega),
              if_pos (show d + 1 = k ∧ d + 1 < s.length by omega)]
            have e : k = d + 1 := by omega
            subst e
            rfl
        · rw [if_neg (show ¬ (k = d + 1 + n ∧ 0 < n) by omega),
            if_neg (show ¬ (k = d + (n + 1) ∧ 0 < n + 1) by omega), getElem?_move_within,
            if_neg (show ¬ (d = k ∧ d < s.length) by omega),
            if_neg (show ¬ (d + 1 = k ∧ d + 1 < s.length) by omega)]

end SlotLemmas

section OwnerLemmas
variable {T : Type}

theorem length_filled (xs : List T) (cap : Nat) (h : xs.length ≤ cap) :
    (filled xs cap).length = cap := by
  simp [filled]; omega

theorem getElem?_filled (xs : List T) (cap k : Nat) (h : xs.length ≤ cap) :
    (filled xs cap)[k]? =
      if k < xs.length then (xs[k]?).map some else if k < cap then some none else none := by
  unfold filled
  rw [List.getElem?_append]
  by_cases h1 : k < xs.length
  · simp [h1]
  · simp only [List.length_map, h1, if_false, List.getElem?_replicate]
    by_cases h2 : k < cap
    · rw [if_pos (by omega), if_pos h2]
    · rw [if_neg (by omega), if_neg h2]

theorem read_filled (xs : List T) (cap k : Nat) (h : xs.length ≤ cap) :
    read (filled xs cap) k = xs[k]? := by
  rw [read_eq_getElem?, getElem?_filled xs cap k h]
  by_cases h1 : k < xs.length
  · rw [if_pos h1, List.getElem?_eq_getElem h1]; rfl
  · rw [if_neg h1, List.getElem?_eq_none (Nat.le_of_not_lt h1)]
    split <;> rfl

theorem filterMap_take_filled (xs : List T) (cap : Nat) :
    ((filled xs cap).take xs.length).filterMap id = xs := by
  unfold filled
  rw [List.take_left' (by simp)]
  induction xs with
  | nil => rfl
  | cons a l ih => simp [ih]

theorem filled_nil_replicate (cap : Nat) : filled ([] : List T) cap = List.replicate cap none := by
  simp [filled]

namespace RawMemory

theorem ctor_eq_owning (n : Nat) : (ctor n : RawMemory T) = owning (List.replicate n none) n := rfl

theorem GetAddress_owning (s : Slots T) (cap : Nat) (h : s.length = cap) :
    (owning s cap).GetAddress = s := by
  unfold owning GetAddress
  by_cases h0 : cap = 0
  · subst h0
    have : s = [] := List.eq_nil_of_length_eq_zero h
    simp [this, Buffer.slots]
  · simp [h0, Buffer.slots]

@[simp] theorem store_owning (s s' : Slots T) (cap : Nat) :
    (owning s cap).store s' = owning s' cap := by
  unfold owning store
  by_cases h0 : cap = 0 <;> simp [h0, Buffer.put]

@[simp] theorem capacity_owning (s : Slots T) (cap : Nat) : (owning s cap).capacity_ = cap := rfl

@[simp] theorem capacity_store (m : RawMemory T) (s : Slots T) :
    (m.store s).capacity_ = m.capacity_ := rfl

@[simp] theorem Swap_fst (a b : RawMemory T) : (a.Swap b).1 = b := rfl

@[simp] theorem Swap_snd (a b : RawMemory T) : (a.Swap b).2 = a := rfl

theorem owning_inj (s s' : Slots T) (cap : Nat) (h : s = s') : owning s cap = owning s' cap := by
  rw [h]

end RawMemory

namespace Vector

@[simp] theorem Size_holding (xs : List T) (cap : Nat) : (holding xs cap).Size = xs.length := rfl

@[simp] theorem Capacity_holding (xs : List T) (cap : Nat) : (holding xs cap).Capacity = cap := rfl

theorem toList_holding (xs : List T) (cap : Nat) (h : xs.length ≤ cap) :
    (holding xs cap).toList = xs := by
  unfold toList range holding
  simp only
  rw [RawMemory.GetAddress_owning _ _ (length_filled xs cap h)]
  exact filterMap_take_filled xs cap

theorem get_holding (xs : List T) (cap k : Nat) (h : xs.length ≤ cap) :
    (holding xs cap).get k = xs[k]? := by
  unfold get holding
  simp only
  rw [RawMemory.GetAddress_owning _ _ (length_filled xs cap h)]
  exact read_filled xs cap k h

/-- The outcome of `TransferObjectsN` when no copy throws: `new_data` receives
the `size` objects, everything else in it is untouched. -/
theorem TransferObjectsN_ok (E : ElemType T) (s d : Slots T) (c c' first size d_first : Nat)
    (hs : s.length = c) (hd : d.length = c')
    (hok : E.relocates_by_move = true ∨
      ∀ j, j < size → ∀ x, read s (first + j) = some x → E.copy_throws x = false) :
    ∃ s' d', TransferObjectsN E (RawMemory.owning s c) first size (RawMemory.owning d c') d_first
        = ⟨false, RawMemory.owning s' c, RawMemory.owning d' c'⟩ ∧
      s'.length = c ∧ d'.length = c' ∧
      (∀ k, d'[k]? = if d_first ≤ k ∧ k < d_first + size ∧ k < c'
        then some (read s (first + (k - d_first))) else d[k]?) ∧
      ∀ k, k < first ∨ first + size ≤ k → s'[k]? = s[k]? := by
  unfold TransferObjectsN
  by_cases h0 : size = 0
  · subst h0
    refine ⟨s, d, by simp, hs, hd, fun k => ?_, fun _ _ => rfl⟩
    rw [if_neg (by omega)]
  · rw [if_neg h0, RawMemory.GetAddress_owning s c hs, RawMemory.GetAddress_owning d c' hd]
    by_cases hm : E.relocates_by_move = true
    · have hm2 : (E.nothrow_move_constructible || !E.copy_constructible) = true := hm
      rw [if_pos hm2]
      refine ⟨_, _, by simp only [RawMemory.store_owning]; rfl, ?_, ?_, fun k => ?_,
        fun k hk => ?_⟩
      · simp [uninitialized_move_n, hs]
      · simp [uninitialized_move_n, hd]
      · simp only [uninitialized_move_n]
        rw [uninitialized_move_loop_dst, hd]
        simp
      · simp only [uninitialized_move_n]
        exact uninitialized_move_loop_src E first d_first 0 size s d k (by omega)
    · have hm2 : ¬ (E.nothrow_move_constructible || !E.copy_constructible) = true := hm
      rw [if_neg hm2]
      have hc := hok.resolve_left hm
      have h := uninitialized_copy_loop_ok E s first d_first 0 size d
        (fun j _ h2 => hc j (by omega))
      refine ⟨s, (uninitialized_copy_n E s first size d d_first).2, ?_, hs, ?_, fun k => ?_,
        fun _ _ => rfl⟩
      · simp only [RawMemory.store_owning, uninitialized_copy_n, h.1]
      · simp [uninitialized_copy_n, hd]
      · simp only [uninitialized_copy_n]
        rw [h.2 k, hd]
        simp


theorem TransferObjectsN_threw (E : ElemType T) (s d : Slots T) (c c' first size d_first : Nat)
    (hs : s.length = c) (hd : d.length = c')
    (hraw : ∀ k, d_first ≤ k → k < d_first + size → read d k = none)
    (hthrew : (TransferObjectsN E (RawMemory.owning s c) first size (RawMemory.owning d c')
      d_first).threw = true) :
    TransferObjectsN E (RawMemory.owning s c) first size (RawMemory.owning d c') d_first
      = ⟨true, RawMemory.owning s c, RawMemory.owning d c'⟩ := by
  unfold TransferObjectsN at hthrew ⊢
  by_cases h0 : size = 0
  · simp [h0] at hthrew
  · rw [if_neg h0] at hthrew ⊢
    by_cases hm : (E.nothrow_move_constructible || !E.copy_constructible) = true
    · simp [hm] at hthrew
    · rw [if_neg hm] at hthrew ⊢
      rw [RawMemory.GetAddress_owning s c hs, RawMemory.GetAddress_owning d c' hd] at hthrew ⊢
      simp only [uninitialized_copy_n] at hthrew ⊢
      have h := uninitialized_copy_loop_threw E s first d_first 0 size d hthrew
        (fun k h1 h2 => hraw k (by omega) (by omega))
      simp only [hthrew, h, destroy_n, RawMemory.store_owning]

theorem TransferObjectsN_throws (E : ElemType T) (s d : Slots T) (c c' first size d_first : Nat)
    (hs : s.length = c) (hd : d.length = c')
    (hm : E.relocates_by_move = false)
    (h : ∃ j, j < size ∧ ∃ x, read s (first + j) = some x ∧ E.copy_throws x = true) :
    (TransferObjectsN E (RawMemory.owning s c) first size (RawMemory.owning d c')
      d_first).threw = true := by
  unfold TransferObjectsN
  obtain ⟨j, hj, x, hx, hc⟩ := h
  have h0 : size ≠ 0 := by omega
  have hm2 : ¬ (E.nothrow_move_constructible || !E.copy_constructible) = true := by
    have : (E.nothrow_move_constructible || !E.copy_constructible) = false := hm
    simp [this]
  rw [if_neg h0, if_neg hm2, RawMemory.GetAddress_owning s c hs,
    RawMemory.GetAddress_owning d c' hd]
  exact uninitialized_copy_loop_throws E s first d_first 0 size d
    ⟨j, by omega, by omega, x, hx, hc⟩

end Vector

theorem eq_filled (d : Slots T) (ys : List T) (cap : Nat) (hlen : d.length = cap)
    (hys : ys.length ≤ cap)
    (hlive : ∀ k, k < ys.length → d[k]? = some (ys[k]?))
    (hraw : ∀ k, ys.length ≤ k → k < cap → d[k]? = some none) :
    d = filled ys cap := by
  apply List.ext_getElem?
  intro k
  rw [getElem?_filled ys cap k hys]
  by_cases h1 : k < ys.length
  · rw [if_pos h1, hlive k h1, List.getElem?_eq_getElem h1]; rfl
  · rw [if_neg h1]
    by_cases h2 : k < cap
    · rw [if_pos h2, hraw k (by omega) h2]
    · rw [if_neg h2, List.getElem?_eq_none (by omega)]

theorem relocatable_reads (E : ElemType T) (xs : List T) (cap first size : Nat)
    (hcap : xs.length ≤ cap) (hok : E.relocatable xs) :
    E.relocates_by_move = true ∨
      ∀ j, j < size → ∀ x, read (filled xs cap) (first + j) = some x → E.copy_throws x = false := by
  rcases hok with h | h
  · exact Or.inl h
  · refine Or.inr (fun j _ x hx => h x ?_)
    rw [read_filled xs cap _ hcap] at hx
    exact List.getElem?_mem hx

end OwnerLemmas

namespace Vector
section Ops
variable {T : Type}

theorem getElem?_append_singleton (xs : List T) (x : T) (k : Nat) (h : k < xs.length + 1) :
    (xs ++ [x])[k]? = if k < xs.length then xs[k]? else some x := by
  rw [List.getElem?_append]
  by_cases h1 : k < xs.length
  · simp [h1]
  · have : k - xs.length = 0 := by omega
    simp [h1, this]

theorem EmplaceBack_holding (E : ElemType T) (xs : List T) (cap : Nat) (x : T)
    (hcap : xs.length ≤ cap) (hok : xs.length = cap → E.relocatable xs) :
    ((holding xs cap).EmplaceBack E x).self =
        holding (xs ++ [x]) (if xs.length = cap then max 1 (2 * cap) else cap) ∧
      ((holding xs cap).EmplaceBack E x).ret = some xs.length := by
  unfold EmplaceBack
  by_cases hfull : xs.length = cap
  · have hsz : (holding xs cap).size_ = xs.length := rfl
    have hcp : (holding xs cap).Capacity = cap := rfl
    simp only [hsz, hcp, hfull, if_true]
    generalize hc' : (if cap = 0 then 1 else cap * 2) = c'
    have hc'' : max 1 (2 * cap) = c' := by
      rw [← hc']; split <;> omega
    have hlt : cap < c' := by rw [← hc']; split <;> omega
    rw [RawMemory.ctor_eq_owning, RawMemory.GetAddress_owning _ _ (by simp),
      RawMemory.store_owning]
    unfold TransferObjectsN_all
    have hd : (construct_at (List.replicate c' (none : Option T)) cap x).length = c' := by simp
    obtain ⟨s', d', heq, hs', hd', hget, -⟩ := TransferObjectsN_ok E (filled xs cap) _ cap c' 0 cap 0
      (length_filled xs cap hcap) hd (relocatable_reads E xs cap 0 cap hcap (hok hfull))
    have hdata : (holding xs cap).data_ = RawMemory.owning (filled xs cap) cap := rfl
    rw [hdata, heq]
    simp only [Bool.false_eq_true, if_false, RawMemory.Swap_fst, RawMemory.store_owning]
    have hfin : d' = filled (xs ++ [x]) c' := by
      apply eq_filled d' (xs ++ [x]) c' hd' (by simp; omega)
      · intro k hk
        have hk' : k < xs.length + 1 := by simpa using hk
        rw [hget k, getElem?_append_singleton xs x k hk']
        by_cases h1 : k < xs.length
        · rw [if_pos (by omega), if_pos h1, read_filled xs cap _ hcap]
          simp
        · have e : k = cap := by omega
          subst e
          rw [if_neg (by omega), if_neg h1, construct_at, List.getElem?_set]
          simp [hlt]
      · intro k h1 h2
        have h1' : xs.length + 1 ≤ k := by simpa using h1
        rw [hget k, if_neg (by omega), construct_at, List.getElem?_set, if_neg (by omega),
          List.getElem?_replicate, if_pos h2]
    rw [hfin, hc'']
    simp [holding, hfull]
  · have hsz : (holding xs cap).size_ = xs.length := rfl
    have hcp : (holding xs cap).Capacity = cap := rfl
    simp only [hsz, hcp, hfull, if_false]
    have hdata : (holding xs cap).data_ = RawMemory.owning (filled xs cap) cap := rfl
    rw [hdata, RawMemory.GetAddress_owning _ _ (length_filled xs cap hcap), RawMemory.store_owning]
    have hfin : construct_at (filled xs cap) xs.length x = filled (xs ++ [x]) cap := by
      apply eq_filled _ (xs ++ [x]) cap (by simp [length_filled xs cap hcap]) (by simp; omega)
      · intro k hk
        have hk' : k < xs.length + 1 := by simpa using hk
        rw [getElem?_append_singleton xs x k hk', construct_at, List.getElem?_set,
          length_filled xs cap hcap]
        by_cases h1 : k < xs.length
        · rw [if_neg (by omega), if_pos h1, getElem?_filled xs cap k hcap, if_pos h1,
            List.getElem?_eq_getElem h1]
          rfl
        · have e : k = xs.length := by omega
          subst e
          rw [if_pos rfl, if_pos (by omega), if_neg h1]
      · intro k h1 h2
        have h1' : xs.length + 1 ≤ k := by simpa using h1
        rw [construct_at, List.getElem?_set, if_neg (by omega), getElem?_filled xs cap k hcap,
          if_neg (by omega), if_pos h2]
    rw [hfin]
    simp [holding]

end Ops
end Vector

namespace Vector
section Ops2
variable {T : Type}

theorem PushBack_eq_EmplaceBack (E : ElemType T) (v : Vector T) (x : T) :
    (v.PushBack E x).self = (v.EmplaceBack E x).self ∧
    (v.PushBack E x).released = (v.EmplaceBack E x).released ∧
    (v.PushBack E x).ret = (v.EmplaceBack E x).ret.map (fun _ => ()) := by
  unfold PushBack EmplaceBack
  split_ifs <;> (try simp only []) <;> (try split_ifs) <;> simp

theorem getElem?_insert (xs : List T) (x : T) (i k : Nat) (hi : i ≤ xs.length) :
    (xs.take i ++ x :: xs.drop i)[k]? =
      if k < i then xs[k]? else if k = i then some x else xs[k - 1]? := by
  rw [List.getElem?_append]
  have hl : (xs.take i).length = i := by simp; omega
  rw [hl]
  by_cases h1 : k < i
  · rw [if_pos h1, if_pos h1, List.getElem?_take, if_pos h1]
  · rw [if_neg h1, if_neg h1, List.getElem?_cons]
    by_cases h2 : k = i
    · rw [if_pos (by omega), if_pos h2]
    · rw [if_neg (by omega), if_neg h2, List.getElem?_drop]
      congr 1
      omega

theorem length_insert (xs : List T) (x : T) (i : Nat) (hi : i ≤ xs.length) :
    (xs.take i ++ x :: xs.drop i).length = xs.length + 1 := by
  simp; omega

theorem Emplace_holding (E : ElemType T) (xs : List T) (cap : Nat) (i : Nat) (x : T)
    (hcap : xs.length ≤ cap) (hi : i ≤ xs.length) (hok : xs.length = cap → E.relocatable xs) :
    ((holding xs cap).Emplace E i x).self =
        holding (xs.take i ++ x :: xs.drop i)
          (if xs.length = cap then max 1 (2 * cap) else cap) ∧
      ((holding xs cap).Emplace E i x).ret = some i := by
  unfold Emplace
  have hsz : (holding xs cap).size_ = xs.length := rfl
  have hcp : (holding xs cap).Capacity = cap := rfl
  have hdata : (holding xs cap).data_ = RawMemory.owning (filled xs cap) cap := rfl
  by_cases hend : i = xs.length
  · subst hend
    have h := EmplaceBack_holding E xs cap x hcap hok
    simp only [hsz, if_true]
    rw [h.1, h.2]
    simp
  · have hlt : i < xs.length := by omega
    simp only [Emplace_try_second, Emplace_try_first, Emplace_new_data, hsz, hcp, hend, if_false]
    by_cases hfull : xs.length = cap
    · have hok := hok hfull
      simp only [hfull, if_true]
      generalize hc' : (if cap = 0 then 1 else cap * 2) = c'
      have hc'' : max 1 (2 * cap) = c' := by
        rw [← hc']; split <;> omega
      have hlt' : cap < c' := by rw [← hc']; split <;> omega
      rw [RawMemory.ctor_eq_owning, RawMemory.GetAddress_owning _ _ (by simp),
        RawMemory.store_owning, hdata]
      have hd : (construct_at (List.replicate c' (none : Option T)) i x).length = c' := by simp
      obtain ⟨s1, d1, heq1, hs1, hd1, hget1, hsrc1⟩ :=
        TransferObjectsN_ok E (filled xs cap) _ cap c' 0 i 0
          (length_filled xs cap hcap) hd (relocatable_reads E xs cap 0 i hcap hok)
      rw [heq1]
      simp only [Bool.false_eq_true, if_false]
      have hok2 : E.relocates_by_move = true ∨
          ∀ j, j < cap - i → ∀ y, read s1 (i + j) = some y → E.copy_throws y = false := by
        rcases hok with h | h
        · exact Or.inl h
        · refine Or.inr (fun j _ y hy => h y ?_)
          rw [read_eq_getElem?, hsrc1 (i + j) (by omega), ← read_eq_getElem?,
            read_filled xs cap _ hcap] at hy
          exact List.getElem?_mem hy
      obtain ⟨s2, d2, heq2, hs2, hd2, hget2, -⟩ :=
        TransferObjectsN_ok E s1 d1 cap c' i (cap - i) (i + 1) hs1 hd1 hok2
      rw [heq2]
      simp only [Bool.false_eq_true, if_false, RawMemory.Swap_fst, RawMemory.store_owning]
      have hfin : d2 = filled (xs.take i ++ x :: xs.drop i) c' := by
        apply eq_filled d2 _ c' hd2 (by rw [length_insert xs x i hi]; omega)
        · intro k hk
          rw [length_insert xs x i hi] at hk
          rw [hget2 k, getElem?_insert xs x i k hi]
          by_cases h1 : k < i
          · rw [if_neg (by omega), hget1 k, if_pos (by omega), if_pos h1,
              read_filled xs cap _ hcap]
            simp
          · by_cases h2 : k = i
            · subst h2
              rw [if_neg (by omega), hget1 k, if_neg (by omega), if_neg h1, if_pos rfl,
                construct_at, List.getElem?_set]
              have hkc : k < c' := by omega
              simp [hkc]
            · rw [if_pos (by omega), if_neg h1, if_neg h2, read_eq_getElem?,
                hsrc1 _ (by omega), ← read_eq_getElem?, read_filled xs cap _ hcap]
              congr 2
              omega
        · intro k h1 h2
          rw [length_insert xs x i hi] at h1
          rw [hget2 k, if_neg (by omega), hget1 k, if_neg (by omega), construct_at,
            List.getElem?_set, if_neg (by omega), List.getElem?_replicate, if_pos h2]
      rw [hfin, hc'']
      simp [holding, hfull, length_insert xs x i hi]
    · simp only [hfull, if_false]
      rw [hdata, RawMemory.GetAddress_owning _ _ (length_filled xs cap hcap),
        RawMemory.store_owning]
      have hloop : move_backward E (move_within E (filled xs cap) (xs.length - 1) xs.length) i
          (xs.length - 1) xs.length =
          move_backward_loop E (filled xs cap) i (xs.length - 1 - i + 1)
            (i + (xs.length - 1 - i + 1) + 1) := by
        have e1 : i + (xs.length - 1 - i) = xs.length - 1 := by omega
        have e2 : i + (xs.length - 1 - i + 1) + 1 - 1 = xs.length := by omega
        simp only [move_backward, move_backward_loop, e1, e2]
      rw [hloop]
      have hfin : (move_backward_loop E (filled xs cap) i (xs.length - 1 - i + 1)
            (i + (xs.length - 1 - i + 1) + 1)).set i (some x) =
          filled (xs.take i ++ x :: xs.drop i) cap := by
        have hlen : i + (xs.length - 1 - i + 1) < (filled xs cap).length := by
          rw [length_filled xs cap hcap]; omega
        apply eq_filled _ _ cap (by simp [length_filled xs cap hcap])
          (by rw [length_insert xs x i hi]; omega)
        · intro k hk
          rw [length_insert xs x i hi] at hk
          rw [List.getElem?_set, length_move_backward_loop, length_filled xs cap hcap,
            getElem?_insert xs x i k hi]
          by_cases h2 : k = i
          · subst h2
            rw [if_pos rfl, if_pos (by omega), if_neg (by omega), if_pos rfl]
          · rw [if_neg (by omega), getElem?_move_backward_loop E _ i _ k hlen]
            by_cases h1 : k < i
            · rw [if_neg (by omega), if_neg (by omega), if_pos h1,
                getElem?_filled xs cap k hcap, if_pos (by omega),
                List.getElem?_eq_getElem (by omega : k < xs.length)]
              rfl
            · rw [if_pos (by omega), if_neg h1, if_neg h2, read_filled xs cap _ hcap]
        · intro k h1 h2
          rw [length_insert xs x i hi] at h1
          rw [List.getElem?_set, if_neg (by omega),
            getElem?_move_backward_loop E _ i _ k hlen, if_neg (by omega), if_neg (by omega),
            getElem?_filled xs cap k hcap, if_neg (by omega), if_pos h2]
      rw [hfin]
      simp [holding, length_insert xs x i hi]

end Ops2
end Vector

namespace Vector
section Ops3
variable {T : Type}

@[simp] theorem length_move (E : ElemType T) (s : Slots T) (first last d_first : Nat) :
    (move E s first last d_first).length = s.length := by
  simp [move]

@[simp] theorem length_move_backward (E : ElemType T) (s : Slots T) (first last d_last : Nat) :
    (move_backward E s first last d_last).length = s.length := by
  simp [move_backward]

theorem Erase_holding (E : ElemType T) (xs : List T) (cap : Nat) (i : Nat)
    (hcap : xs.length ≤ cap) (hi : i < xs.length) :
    (holding xs cap).Erase E i = ⟨holding (xs.eraseIdx i) cap, some i, none⟩ := by
  unfold Erase
  have hsz : (holding xs cap).size_ = xs.length := rfl
  have hdata : (holding xs cap).data_ = RawMemory.owning (filled xs cap) cap := rfl
  have hlen : (xs.eraseIdx i).length = xs.length - 1 := List.length_eraseIdx_of_lt hi
  simp only [hsz, hdata]
  rw [RawMemory.GetAddress_owning _ _ (length_filled xs cap hcap), RawMemory.store_owning]
  have hfin : destroy_at (move E (filled xs cap) (i + 1) xs.length i) (xs.length - 1) =
      filled (xs.eraseIdx i) cap := by
    have hl : i + (xs.length - (i + 1)) < (filled xs cap).length := by
      rw [length_filled xs cap hcap]; omega
    apply eq_filled _ _ cap (by simp [length_filled xs cap hcap]) (by omega)
    · intro k hk
      rw [hlen] at hk
      rw [destroy_at, List.getElem?_set, if_neg (by omega), move,
        getElem?_move_loop E _ i _ k hl, List.getElem?_eraseIdx]
      by_cases h1 : k < i
      · rw [if_neg (by omega), if_neg (by omega), if_pos h1, getElem?_filled xs cap k hcap,
          if_pos (by omega), List.getElem?_eq_getElem (by omega : k < xs.length)]
        rfl
      · rw [if_pos (by omega), if_neg h1, read_filled xs cap _ hcap]
    · intro k h1 h2
      rw [hlen] at h1
      rw [destroy_at, List.getElem?_set, length_move, length_filled xs cap hcap]
      by_cases h3 : k = xs.length - 1
      · rw [if_pos (by omega), if_pos (by omega)]
      · rw [if_neg (by omega), move, getElem?_move_loop E _ i _ k hl, if_neg (by omega),
          if_neg (by omega), getElem?_filled xs cap k hcap, if_neg (by omega), if_pos h2]
  rw [hfin]
  simp [holding, hlen]

end Ops3
end Vector

namespace Vector
section Failure
variable {T : Type}

theorem grow_capacity (cap : Nat) :
    (if cap = 0 then 1 else cap * 2) = max 1 (2 * cap) ∧ cap < (if cap = 0 then 1 else cap * 2) := by
  split <;> omega

theorem exists_throwing_read (E : ElemType T) (xs : List T) (cap : Nat) (hcap : xs.length ≤ cap)
    (k : Nat) (e : T) (hk : xs[k]? = some e) (hthrow : E.copy_throws e = true)
    (first size : Nat) (h1 : first ≤ k) (h2 : k < first + size) :
    ∃ j, j < size ∧ ∃ x, read (filled xs cap) (first + j) = some x ∧ E.copy_throws x = true := by
  refine ⟨k - first, by omega, e, ?_, hthrow⟩
  rw [read_filled xs cap _ hcap]
  have : first + (k - first) = k := by omega
  rw [this, hk]

theorem read_construct_at_replicate (n i k : Nat) (x : T) (h : k ≠ i) :
    read (construct_at (List.replicate n (none : Option T)) i x) k = none := by
  rw [construct_at, read_set, if_neg (by omega), read_eq_getElem?, List.getElem?_replicate]
  split <;> rfl

/-- The growth path of `EmplaceBack` when a copy throws: the vector is as
before, and the new buffer is released with the new element still alive at
index `size_`. -/
theorem EmplaceBack_throws (E : ElemType T) (xs : List T) (cap : Nat) (x : T)
    (hm : E.relocates_by_move = false) (hfull : xs.length = cap)
    (k : Nat) (e : T) (hk : xs[k]? = some e) (hthrow : E.copy_throws e = true) :
    (holding xs cap).EmplaceBack E x =
      ⟨holding xs cap, none,
        some (RawMemory.owning (construct_at (List.replicate (max 1 (2 * cap)) none) cap x)
          (max 1 (2 * cap)))⟩ := by
  have hcap : xs.length ≤ cap := by omega
  have hklt : k < xs.length := (List.getElem?_eq_some.mp hk).1
  unfold EmplaceBack TransferObjectsN_all
  have hsz : (holding xs cap).size_ = xs.length := rfl
  have hcp : (holding xs cap).Capacity = cap := rfl
  have hdata : (holding xs cap).data_ = RawMemory.owning (filled xs cap) cap := rfl
  simp only [hsz, hcp, hfull, if_true, (grow_capacity cap).1, hdata]
  rw [RawMemory.ctor_eq_owning, RawMemory.GetAddress_owning _ _ (by simp),
    RawMemory.store_owning]
  have hthrew := TransferObjectsN_throws E (filled xs cap)
    (construct_at (List.replicate (max 1 (2 * cap)) none) cap x) cap (max 1 (2 * cap)) 0 cap 0
    (length_filled xs cap hcap) (by simp) hm
    (exists_throwing_read E xs cap hcap k e hk hthrow 0 cap (by omega) (by omega))
  rw [TransferObjectsN_threw E _ _ cap _ 0 cap 0 (length_filled xs cap hcap) (by simp)
    (fun j _ h2 => read_construct_at_replicate _ cap j x (by omega)) hthrew]
  simp [holding, hfull]

theorem Reserve_throws (E : ElemType T) (xs : List T) (cap n : Nat)
    (hm : E.relocates_by_move = false) (hcap : xs.length ≤ cap) (hn : cap < n)
    (k : Nat) (e : T) (hk : xs[k]? = some e) (hthrow : E.copy_throws e = true) :
    (holding xs cap).Reserve E n = ⟨holding xs cap, none, some (RawMemory.ctor n)⟩ := by
  have hklt : k < xs.length := (List.getElem?_eq_some.mp hk).1
  unfold Reserve TransferObjectsN_all
  have hsz : (holding xs cap).size_ = xs.length := rfl
  have hdata : (holding xs cap).data_ = RawMemory.owning (filled xs cap) cap := rfl
  have hcp : (holding xs cap).data_.Capacity = cap := rfl
  rw [hcp, if_neg (by omega)]
  simp only [hsz, hdata]
  rw [RawMemory.ctor_eq_owning]
  have hthrew := TransferObjectsN_throws E (filled xs cap)
    (List.replicate n none) cap n 0 xs.length 0
    (length_filled xs cap hcap) (by simp) hm
    (exists_throwing_read E xs cap hcap k e hk hthrow 0 xs.length (by omega) (by omega))
  rw [TransferObjectsN_threw E _ _ cap _ 0 xs.length 0 (length_filled xs cap hcap) (by simp)
    (fun j _ _ => by rw [read_eq_getElem?, List.getElem?_replicate]; split <;> rfl) hthrew]
  simp [holding]

end Failure
end Vector

namespace Vector
section Failure2
variable {T : Type}

theorem TransferObjectsN_copy_data (E : ElemType T) (data nd : RawMemory T)
    (first size d_first : Nat) (hm : E.relocates_by_move = false) :
    (TransferObjectsN E data first size nd d_first).data = data := by
  have hm2 : (E.nothrow_move_constructible || !E.copy_constructible) = false := hm
  unfold TransferObjectsN
  split
  · rfl
  · simp [hm2]

theorem filterMap_filled (ys : List T) (cap : Nat) : (filled ys cap).filterMap id = ys := by
  unfold filled
  rw [List.filterMap_append, List.filterMap_replicate_of_none rfl, List.append_nil]
  induction ys with
  | nil => rfl
  | cons a l ih => simp [ih]

theorem filterMap_set_replicate (n i : Nat) (x : T) (h : i < n) :
    ((List.replicate n (none : Option T)).set i (some x)).filterMap id = [x] := by
  induction n generalizing i with
  | zero => omega
  | succ n ih =>
    cases i with
    | zero => simp [List.replicate_succ, List.filterMap_replicate_of_none]
    | succ i => simp [List.replicate_succ, ih i (by omega)]

theorem destroy_all_replicate (d : Slots T) (c m : Nat) (hd : d.length = c)
    (h : ∀ k, m ≤ k → k < c → d[k]? = some none) :
    destroy_n d 0 m = List.replicate c none := by
  apply List.ext_getElem?
  intro k
  rw [getElem?_destroy_n, List.getElem?_replicate, hd]
  by_cases h1 : k < c
  · by_cases h2 : k < m
    · rw [if_pos (by omega), if_pos h1]
    · rw [if_neg (by omega), if_pos h1, h k (by omega) h1]
  · rw [if_neg (by omega), if_neg h1, List.getElem?_eq_none (by omega)]

/-- The growth path of `Emplace` at an interior position when a copy throws. -/
theorem Emplace_throws (E : ElemType T) (xs : List T) (cap i : Nat) (x : T)
    (hm : E.relocates_by_move = false) (hfull : xs.length = cap) (hi : i < xs.length)
    (k : Nat) (e : T) (hk : xs[k]? = some e) (hthrow : E.copy_throws e = true) :
    (holding xs cap).Emplace E i x =
        ⟨holding xs cap, none, some (RawMemory.ctor (max 1 (2 * cap)))⟩ ∧
    ((Emplace_try_first E (holding xs cap) i x).threw = true →
      Emplace_try_first E (holding xs cap) i x =
        ⟨true, (holding xs cap).data_,
          RawMemory.owning (construct_at (List.replicate (max 1 (2 * cap)) none) i x)
            (max 1 (2 * cap))⟩) ∧
    ((Emplace_try_first E (holding xs cap) i x).threw = false →
      Emplace_try_second E (holding xs cap) i x =
        ⟨true, (holding xs cap).data_,
          RawMemory.owning (filled (xs.take i ++ [x]) (max 1 (2 * cap))) (max 1 (2 * cap))⟩) := by
  have hcap : xs.length ≤ cap := by omega
  have hklt : k < xs.length := (List.getElem?_eq_some.mp hk).1
  have hsz : (holding xs cap).size_ = xs.length := rfl
  have hcp : (holding xs cap).Capacity = cap := rfl
  have hdata : (holding xs cap).data_ = RawMemory.owning (filled xs cap) cap := rfl
  have hlt' : cap < max 1 (2 * cap) := by omega
  generalize hc' : max 1 (2 * cap) = c' at hlt' ⊢
  have hnd : Emplace_new_data (holding xs cap) i x =
      RawMemory.owning (construct_at (List.replicate c' none) i x) c' := by
    unfold Emplace_new_data
    simp only [hsz, hfull, (grow_capacity cap).1, hc']
    rw [RawMemory.ctor_eq_owning, RawMemory.GetAddress_owning _ _ (by simp),
      RawMemory.store_owning]
  have hdl : (construct_at (List.replicate c' (none : Option T)) i x).length = c' := by simp
  -- the first try block
  have hfirst : (Emplace_try_first E (holding xs cap) i x).threw = true →
      Emplace_try_first E (holding xs cap) i x =
        ⟨true, RawMemory.owning (filled xs cap) cap,
          RawMemory.owning (construct_at (List.replicate c' none) i x) c'⟩ := by
    intro ht
    unfold Emplace_try_first at ht ⊢
    rw [hnd, hdata] at ht ⊢
    exact TransferObjectsN_threw E _ _ cap c' 0 i 0 (length_filled xs cap hcap) hdl
      (fun j _ h2 => read_construct_at_replicate _ i j x (by omega)) ht
  -- the second try block
  have hsecond : (Emplace_try_first E (holding xs cap) i x).threw = false →
      Emplace_try_first E (holding xs cap) i x =
        ⟨false, RawMemory.owning (filled xs cap) cap,
          RawMemory.owning (filled (xs.take i ++ [x]) c') c'⟩ ∧
      Emplace_try_second E (holding xs cap) i x =
        ⟨true, RawMemory.owning (filled xs cap) cap,
          RawMemory.owning (filled (xs.take i ++ [x]) c') c'⟩ := by
    intro ht
    have hl1 : (xs.take i ++ [x]).length = i + 1 := by simp; omega
    have hpre : ∀ j, j < i → ∀ y, read (filled xs cap) (0 + j) = some y →
        E.copy_throws y = false := by
      intro j hj y hy
      by_contra hc
      have hth := TransferObjectsN_throws E (filled xs cap)
        (construct_at (List.replicate c' none) i x) cap c' 0 i 0
        (length_filled xs cap hcap) hdl hm ⟨j, hj, y, hy, by simpa using hc⟩
      unfold Emplace_try_first at ht
      rw [hnd, hdata, hth] at ht
      exact absurd ht (by simp)
    obtain ⟨s1, d1, heq1, hs1, hd1, hget1, -⟩ :=
      TransferObjectsN_ok E (filled xs cap) _ cap c' 0 i 0
        (length_filled xs cap hcap) hdl (Or.inr hpre)
    have hs1e : RawMemory.owning s1 cap = RawMemory.owning (filled xs cap) cap := by
      have h := TransferObjectsN_copy_data E (RawMemory.owning (filled xs cap) cap)
        (RawMemory.owning (construct_at (List.replicate c' none) i x) c') 0 i 0 hm
      rw [heq1] at h
      exact h
    have hd1e : d1 = filled (xs.take i ++ [x]) c' := by
      apply eq_filled d1 _ c' hd1 (by omega)
      · intro j hj
        rw [hl1] at hj
        rw [hget1 j]
        by_cases h1 : j < i
        · rw [if_pos (by omega), read_filled xs cap _ hcap, List.getElem?_append_left
            (by simp; omega), List.getElem?_take, if_pos h1]
          simp
        · have e1 : j = i := by omega
          subst e1
          have hjc : j < (List.replicate c' (none : Option T)).length := by simp; omega
          have hjl : (List.take j xs).length = j := by simp; omega
          rw [if_neg (by omega), construct_at, List.getElem?_set, if_pos rfl, if_pos hjc,
            List.getElem?_append_right (by omega), hjl]
          simp
      · intro j h1 h2
        rw [hl1] at h1
        rw [hget1 j, if_neg (by omega), construct_at, List.getElem?_set, if_neg (by omega),
          List.getElem?_replicate, if_pos h2]
    rw [hs1e, hd1e] at heq1
    have h1 : Emplace_try_first E (holding xs cap) i x =
        ⟨false, RawMemory.owning (filled xs cap) cap,
          RawMemory.owning (filled (xs.take i ++ [x]) c') c'⟩ := by
      unfold Emplace_try_first
      rw [hnd, hdata]
      exact heq1
    refine ⟨h1, ?_⟩
    unfold Emplace_try_second
    simp only [h1, hsz]
    have hki : i ≤ k := by
      by_contra hc
      have := hpre k (by omega) e (by rw [read_filled xs cap _ hcap]; simpa using hk)
      rw [hthrow] at this
      exact absurd this (by simp)
    have hlf : (filled (xs.take i ++ [x]) c').length = c' :=
      length_filled _ c' (by omega)
    have hth := TransferObjectsN_throws E (filled xs cap)
      (filled (xs.take i ++ [x]) c') cap c' i (xs.length - i) (i + 1)
      (length_filled xs cap hcap) hlf hm
      (exists_throwing_read E xs cap hcap k e hk hthrow i (xs.length - i) hki (by omega))
    exact TransferObjectsN_threw E _ _ cap c' i (xs.length - i) (i + 1)
      (length_filled xs cap hcap) hlf
      (fun j h1 _ => by
        rw [read_filled _ c' _ (by omega), List.getElem?_eq_none (by omega)]) hth
  refine ⟨?_, ?_, ?_⟩
  · unfold Emplace
    rw [if_neg (show ¬ i = (holding xs cap).size_ by rw [hsz]; omega),
      if_pos (show (holding xs cap).size_ = (holding xs cap).Capacity by rw [hsz, hcp, hfull])]
    simp only [hsz]
    by_cases ht : (Emplace_try_first E (holding xs cap) i x).threw = true
    · have h := hfirst ht
      simp only [h, if_true]
      rw [RawMemory.GetAddress_owning _ _ hdl, RawMemory.store_owning, RawMemory.ctor_eq_owning]
      have : destroy_at (construct_at (List.replicate c' (none : Option T)) i x) i
          = List.replicate c' none := by
        apply List.ext_getElem?
        intro j
        simp only [destroy_at, construct_at, List.getElem?_set, List.length_set,
          List.length_replicate, List.getElem?_replicate]
        by_cases h1 : i = j
        · subst h1
          simp
        · simp [h1]
      rw [this]
      simp [holding, hfull]
    · have ht' : (Emplace_try_first E (holding xs cap) i x).threw = false := by
        simpa using ht
      have h := hsecond ht'
      simp only [h.1, h.2, Bool.false_eq_true, if_false, if_true]
      have hlf : (filled (xs.take i ++ [x]) c').length = c' :=
        length_filled _ c' (by simp; omega)
      rw [RawMemory.GetAddress_owning _ _ hlf, RawMemory.store_owning, RawMemory.ctor_eq_owning]
      have : destroy_n (filled (xs.take i ++ [x]) c') 0 (i + 1) = List.replicate c' none := by
        apply destroy_all_replicate _ c' (i + 1) hlf
        intro j h1 h2
        rw [getElem?_filled _ c' j (by simp; omega), if_neg (by simp; omega), if_pos h2]
      rw [this]
      simp [holding, hfull]
  · intro ht
    rw [hfirst ht, hdata]
  · intro ht
    rw [(hsecond ht).2, hdata]

end Failure2
end Vector

namespace Vector
section Numeric
variable {T : Type}

theorem TransferObjectsN_capacity (E : ElemType T) (data nd : RawMemory T)
    (first size d_first : Nat) :
    (TransferObjectsN E data first size nd d_first).data.capacity_ = data.capacity_ ∧
    (TransferObjectsN E data first size nd d_first).new_data.capacity_ = nd.capacity_ := by
  unfold TransferObjectsN
  split_ifs <;> exact ⟨rfl, rfl⟩

theorem Reserve_numeric (E : ElemType T) (v : Vector T) (n : Nat) :
    (v.Reserve E n).self.size_ = v.size_ ∧
    ((v.Reserve E n).ret = none → (v.Reserve E n).self.data_.capacity_ = v.data_.capacity_) ∧
    ((v.Reserve E n).ret ≠ none →
      (v.Reserve E n).self.data_.capacity_ = max v.data_.capacity_ n) := by
  unfold Reserve
  have hc := TransferObjectsN_capacity E v.data_ (RawMemory.ctor n) 0 v.size_ 0
  have hn : (RawMemory.ctor n : RawMemory T).capacity_ = n := rfl
  by_cases h1 : n ≤ v.data_.Capacity
  · have h1' : n ≤ v.data_.capacity_ := h1
    rw [if_pos h1]
    dsimp only
    exact ⟨rfl, fun _ => rfl, fun _ => by omega⟩
  · have h1' : ¬ n ≤ v.data_.capacity_ := h1
    rw [if_neg h1]
    dsimp only [TransferObjectsN_all]
    by_cases ht : (TransferObjectsN E v.data_ 0 v.size_ (RawMemory.ctor n) 0).threw = true
    · rw [if_pos ht]
      dsimp only
      exact ⟨rfl, fun _ => hc.1, fun h => absurd rfl h⟩
    · rw [if_neg ht]
      dsimp only [RawMemory.Swap]
      refine ⟨rfl, fun h => by simp at h, fun _ => ?_⟩
      rw [hc.2, hn]
      omega

theorem EmplaceBack_numeric (E : ElemType T) (v : Vector T) (x : T)
    (h : v.size_ ≤ v.data_.capacity_) :
    (v.EmplaceBack E x).self.size_ ≤ (v.EmplaceBack E x).self.data_.capacity_ ∧
    v.data_.capacity_ ≤ (v.EmplaceBack E x).self.data_.capacity_ := by
  unfold EmplaceBack
  have hcap : v.Capacity = v.data_.capacity_ := rfl
  by_cases h1 : v.size_ = v.Capacity
  · rw [if_pos h1]
    dsimp only [TransferObjectsN_all]
    generalize hnd : ((RawMemory.ctor (if v.size_ = 0 then 1 else v.size_ * 2)).store
      (construct_at (RawMemory.ctor (if v.size_ = 0 then 1 else v.size_ * 2)).GetAddress
        v.size_ x) : RawMemory T) = nd
    have hndc : nd.capacity_ = if v.size_ = 0 then 1 else v.size_ * 2 := by
      rw [← hnd]; rfl
    have hc := TransferObjectsN_capacity E v.data_ nd 0 v.size_ 0
    by_cases ht : (TransferObjectsN E v.data_ 0 v.size_ nd 0).threw = true
    · rw [if_pos ht]
      dsimp only
      rw [hc.1]
      omega
    · rw [if_neg ht]
      dsimp only [RawMemory.Swap]
      rw [hc.2, hndc]
      split <;> omega
  · rw [if_neg h1]
    dsimp only [RawMemory.store]
    omega

theorem Emplace_numeric (E : ElemType T) (v : Vector T) (i : Nat) (x : T)
    (h : v.size_ ≤ v.data_.capacity_) :
    (v.Emplace E i x).self.size_ ≤ (v.Emplace E i x).self.data_.capacity_ ∧
    v.data_.capacity_ ≤ (v.Emplace E i x).self.data_.capacity_ := by
  unfold Emplace
  by_cases h0 : i = v.size_
  · rw [if_pos h0]
    exact EmplaceBack_numeric E v x h
  · rw [if_neg h0]
    have hcap : v.Capacity = v.data_.capacity_ := rfl
    by_cases h1 : v.size_ = v.Capacity
    · rw [if_pos h1]
      have hndc : (Emplace_new_data v i x).capacity_ = if v.size_ = 0 then 1 else v.size_ * 2 := rfl
      have hc1 := TransferObjectsN_capacity E v.data_ (Emplace_new_data v i x) 0 i 0
      have hc2 := TransferObjectsN_capacity E (Emplace_try_first E v i x).data
        (Emplace_try_first E v i x).new_data i (v.size_ - i) (i + 1)
      have e1 : Emplace_try_first E v i x
          = TransferObjectsN E v.data_ 0 i (Emplace_new_data v i x) 0 := rfl
      have e2 : Emplace_try_second E v i x
          = TransferObjectsN E (Emplace_try_first E v i x).data i (v.size_ - i)
              (Emplace_try_first E v i x).new_data (i + 1) := rfl
      dsimp only
      by_cases ht : (Emplace_try_first E v i x).threw = true
      · rw [if_pos ht]
        dsimp only
        rw [e1, hc1.1]
        omega
      · rw [if_neg ht]
        by_cases hu : (Emplace_try_second E v i x).threw = true
        · rw [if_pos hu]
          dsimp only
          rw [e2, hc2.1, e1, hc1.1]
          omega
        · rw [if_neg hu]
          dsimp only [RawMemory.Swap]
          rw [e2, hc2.2, e1, hc1.2, hndc]
          split <;> omega
    · rw [if_neg h1]
      dsimp only [RawMemory.store]
      omega

end Numeric
end Vector

section WellFormed
variable {T : Type}
open Vector

theorem map_some_filterMap (l : List (Option T)) (h : ∀ o ∈ l, ∃ x, o = some x) :
    (l.filterMap id).map some = l := by
  induction l with
  | nil => rfl
  | cons a l ih =>
    obtain ⟨x, hx⟩ := h a (List.mem_cons_self a l)
    subst hx
    simp [ih (fun o ho => h o (List.mem_cons_of_mem _ ho))]

/-- The vectors that satisfy the class invariant are exactly the vectors
`holding xs cap` with `xs.length <= cap`. -/
theorem well_formed_iff_holding (v : Vector T) :
    v.well_formed ↔ ∃ xs cap, xs.length ≤ cap ∧ v = holding xs cap := by
  constructor
  · rintro ⟨hle, h⟩
    obtain ⟨⟨b, c⟩, n⟩ := v
    simp only at hle h
    rcases h with ⟨h0, hb⟩ | ⟨h0, s, hb, hlen, hlive, hraw⟩
    · subst h0; subst hb
      have hn : n = 0 := by omega
      subst hn
      exact ⟨[], 0, Nat.le_refl 0, rfl⟩
    · subst hb
      have hall : ∀ o ∈ s.take n, ∃ x, o = some x := by
        intro o ho
        obtain ⟨k, hk⟩ := List.mem_iff_getElem?.mp ho
        rw [List.getElem?_take] at hk
        by_cases hkn : k < n
        · rw [if_pos hkn] at hk
          obtain ⟨x, hx⟩ := hlive k hkn
          rw [hx] at hk
          exact ⟨x, (Option.some.inj hk).symm⟩
        · rw [if_neg hkn] at hk
          exact absurd hk (by simp)
      have hm := map_some_filterMap (s.take n) hall
      have hl : ((s.take n).filterMap id).length = n := by
        have := congrArg List.length hm
        simp only [List.length_map, List.length_take] at this
        omega
      refine ⟨(s.take n).filterMap id, c, by omega, ?_⟩
      have hs : s = filled ((s.take n).filterMap id) c := by
        unfold filled
        rw [hm, hl]
        have hd : s.drop n = List.replicate (c - n) none := by
          apply List.ext_getElem?
          intro k
          rw [List.getElem?_drop, List.getElem?_replicate]
          by_cases hk : k < c - n
          · rw [if_pos hk, hraw (n + k) (by omega) (by omega)]
          · rw [if_neg hk, List.getElem?_eq_none (by omega)]
        rw [← hd, List.take_append_drop]
      unfold holding RawMemory.owning
      rw [if_pos h0, hl, ← hs]
  · rintro ⟨xs, cap, hle, rfl⟩
    refine ⟨hle, ?_⟩
    by_cases h0 : cap = 0
    · left
      subst h0
      exact ⟨rfl, rfl⟩
    · right
      refine ⟨h0, filled xs cap, by simp [holding, RawMemory.owning, h0],
        length_filled xs cap hle, fun k hk => ?_, fun k h1 h2 => ?_⟩
      · have hk' : k < xs.length := hk
        refine ⟨xs[k], ?_⟩
        rw [getElem?_filled xs cap k hle, if_pos hk', List.getElem?_eq_getElem hk']
        rfl
      · have h1' : xs.length ≤ k := h1
        have h2' : k < cap := h2
        rw [getElem?_filled xs cap k hle, if_neg (by omega), if_pos h2']

end WellFormed

section Claims
variable {T : Type}
open Vector

theorem assign_copy_numeric (E : ElemType T) (a rhs : Vector T) (h : a.size_ ≤ a.data_.capacity_) :
    (a.assign_copy E rhs).self.size_ ≤ (a.assign_copy E rhs).self.data_.capacity_ := by
  unfold assign_copy
  by_cases h1 : rhs.size_ > a.data_.Capacity
  · rw [if_pos h1]
    unfold ctor_copy
    dsimp only
    split_ifs with ht
    · exact h
    · exact le_refl _
  · have h1' : rhs.size_ ≤ a.data_.capacity_ := Nat.le_of_not_lt h1
    rw [if_neg h1]
    dsimp only
    split_ifs
    · exact h1'
    · exact h
    · exact h1'

theorem Resize_numeric (E : ElemType T) (v : Vector T) (n : Nat) (h : v.size_ ≤ v.data_.capacity_) :
    (v.Resize E n).self.size_ ≤ (v.Resize E n).self.data_.capacity_ ∧
    v.data_.capacity_ ≤ (v.Resize E n).self.data_.capacity_ := by
  unfold Resize
  have hr := Reserve_numeric E v n
  by_cases h1 : n < v.size_
  · rw [if_pos h1]
    dsimp only [RawMemory.store]
    omega
  · rw [if_neg h1]
    by_cases h2 : n > v.size_
    · rw [if_pos h2]
      dsimp only
      cases hret : (v.Reserve E n).ret with
      | none =>
        dsimp only
        rw [hr.1, hr.2.1 hret]
        omega
      | some u =>
        dsimp only [RawMemory.store]
        rw [hr.2.2 (by rw [hret]; simp)]
        omega
    · rw [if_neg h2]
      dsimp only
      omega

/-- C1. Size never exceeds capacity: every constructor yields a vector with
`Size() <= Capacity()`, and every operation applied to vectors with
`Size() <= Capacity()` leaves each vector involved with `Size() <= Capacity()`,
whether the call returns or throws. -/
theorem C1_size_le_capacity (E : ElemType T) :
    (ctor_default : Vector T).size_le_capacity ∧
    (∀ n, (ctor_size E n).size_le_capacity) ∧
    (∀ other v, ctor_copy E other = Except.ok v → v.size_le_capacity) ∧
    (∀ other : Vector T, other.size_le_capacity →
      (ctor_move other).1.size_le_capacity ∧ (ctor_move other).2.size_le_capacity) ∧
    (∀ a rhs : Vector T, a.size_le_capacity → (a.assign_copy E rhs).self.size_le_capacity) ∧
    (∀ a rhs : Vector T, a.size_le_capacity → rhs.size_le_capacity →
      (a.assign_move rhs).1.size_le_capacity ∧ (a.assign_move rhs).2.size_le_capacity) ∧
    (∀ a b : Vector T, a.size_le_capacity → b.size_le_capacity →
      (a.Swap b).1.size_le_capacity ∧ (a.Swap b).2.size_le_capacity) ∧
    (∀ (v : Vector T) n, v.size_le_capacity → (v.Reserve E n).self.size_le_capacity) ∧
    (∀ (v : Vector T) n, v.size_le_capacity → (v.Resize E n).self.size_le_capacity) ∧
    (∀ (v : Vector T) x, v.size_le_capacity → (v.PushBack E x).self.size_le_capacity) ∧
    (∀ (v : Vector T) x, v.size_le_capacity → (v.EmplaceBack E x).self.size_le_capacity) ∧
    (∀ (v : Vector T) i x, v.size_le_capacity → i ≤ v.Size →
      (v.Insert E i x).self.size_le_capacity ∧ (v.Emplace E i x).self.size_le_capacity) ∧
    (∀ (v : Vector T) i, v.size_le_capacity → i < v.Size →
      (v.Erase E i).self.size_le_capacity) ∧
    (∀ v : Vector T, v.size_le_capacity → 0 < v.Size → v.PopBack.size_le_capacity) := by
  refine ⟨?_, ?_, ?_, ?_, ?_, ?_, ?_, ?_, ?_, ?_, ?_, ?_, ?_, ?_⟩
  · exact le_refl _
  · intro n
    exact le_refl _
  · intro other v h
    unfold ctor_copy at h
    dsimp only at h
    split_ifs at h
    cases h
    exact le_refl _
  · intro other h
    exact ⟨h, Nat.zero_le _⟩
  · intro a rhs h
    exact assign_copy_numeric E a rhs h
  · intro a rhs ha hr
    exact ⟨hr, ha⟩
  · intro a b ha hb
    exact ⟨hb, ha⟩
  · intro v n h
    have hr := Reserve_numeric E v n
    show (v.Reserve E n).self.size_ ≤ (v.Reserve E n).self.data_.capacity_
    have h' : v.size_ ≤ v.data_.capacity_ := h
    cases hret : (v.Reserve E n).ret with
    | none => rw [hr.1, hr.2.1 hret]; exact h'
    | some u => rw [hr.1, hr.2.2 (by rw [hret]; simp)]; omega
  · intro v n h
    exact (Resize_numeric E v n h).1
  · intro v x h
    show (v.PushBack E x).self.size_ ≤ (v.PushBack E x).self.data_.capacity_
    rw [(PushBack_eq_EmplaceBack E v x).1]
    exact (EmplaceBack_numeric E v x h).1
  · intro v x h
    exact (EmplaceBack_numeric E v x h).1
  · intro v i x h _
    exact ⟨(Emplace_numeric E v i x h).1, (Emplace_numeric E v i x h).1⟩
  · intro v i h hi
    show v.size_ - 1 ≤ v.data_.capacity_
    have h' : v.size_ ≤ v.data_.capacity_ := h
    omega
  · intro v h hpos
    show v.size_ - 1 ≤ v.data_.capacity_
    have h' : v.size_ ≤ v.data_.capacity_ := h
    omega

/-- C1 at a concrete input: a full vector `[1, 2]` keeps the invariant across
`PushBack(3)`. -/
theorem C1_size_le_capacity_witness :
    (holding [1, 2] 2).size_le_capacity ∧
      ((holding [1, 2] 2).PushBack int_like 3).self.size_le_capacity :=
  ⟨by decide, (C1_size_le_capacity int_like).2.2.2.2.2.2.2.2.2.1 (holding [1, 2] 2) 3 (by decide)⟩

end Claims

section Claims2
variable {T : Type}
open Vector

/-- C2. `PushBack(x)` and `EmplaceBack(x)` on a vector with elements `xs` and
capacity `cap`, `xs.length <= cap`: the call returns, the elements are `xs`
followed by `x`, the size is one more, and the capacity is `max(1, 2 * cap)` if
the vector was full and `cap` otherwise. Only a full vector relocates, and only
then the relocation is required not to throw; with spare capacity nothing is
asked of the element type. -/
theorem C2_PushBack_appends (E : ElemType T) (xs : List T) (cap : Nat) (x : T)
    (hcap : xs.length ≤ cap) (hok : xs.length = cap → E.relocatable xs) :
    (((holding xs cap).PushBack E x).ret = some () ∧
      ((holding xs cap).PushBack E x).self.toList = xs ++ [x] ∧
      ((holding xs cap).PushBack E x).self.Size = xs.length + 1 ∧
      ((holding xs cap).PushBack E x).self.Capacity =
        (if xs.length = cap then max 1 (2 * cap) else cap) ∧
      ((holding xs cap).PushBack E x).self =
        holding (xs ++ [x]) (if xs.length = cap then max 1 (2 * cap) else cap)) ∧
    (((holding xs cap).EmplaceBack E x).ret = some xs.length ∧
      ((holding xs cap).EmplaceBack E x).self.toList = xs ++ [x] ∧
      ((holding xs cap).EmplaceBack E x).self.Size = xs.length + 1 ∧
      ((holding xs cap).EmplaceBack E x).self.Capacity =
        (if xs.length = cap then max 1 (2 * cap) else cap) ∧
      ((holding xs cap).EmplaceBack E x).self =
        holding (xs ++ [x]) (if xs.length = cap then max 1 (2 * cap) else cap)) := by
  have h := EmplaceBack_holding E xs cap x hcap hok
  have hp := PushBack_eq_EmplaceBack E (holding xs cap) x
  have hle : (xs ++ [x]).length ≤ (if xs.length = cap then max 1 (2 * cap) else cap) := by
    rw [List.length_append, List.length_singleton]
    split <;> omega
  refine ⟨⟨?_, ?_, ?_, ?_, ?_⟩, ⟨h.2, ?_, ?_, ?_, h.1⟩⟩
  · rw [hp.2.2, h.2]; rfl
  · rw [hp.1, h.1]; exact toList_holding _ _ hle
  · rw [hp.1, h.1]; simp
  · rw [hp.1, h.1]; simp
  · rw [hp.1, h.1]
  · rw [h.1]; exact toList_holding _ _ hle
  · rw [h.1]; simp
  · rw [h.1]; simp

/-- C2 at concrete inputs: `PushBack(3)` on the full vector `[1, 2]`, and
`PushBack(5)` on `[13]` with capacity 4 for an element type whose copy of 13
throws: nothing is relocated, so the element is appended. -/
theorem C2_PushBack_appends_witness :
    ((holding [1, 2] 2).PushBack int_like 3).self = holding [1, 2, 3] 4 ∧
      ((holding [13] 4).PushBack (throwing_copy 13) 5).ret = some () ∧
      ((holding [13] 4).PushBack (throwing_copy 13) 5).self = holding [13, 5] 4 :=
  ⟨(C2_PushBack_appends int_like [1, 2] 2 3 (by decide) (fun _ => Or.inl rfl)).1.2.2.2.2,
    (C2_PushBack_appends (throwing_copy 13) [13] 4 5 (by decide)
      (fun h => absurd h (by decide))).1.1,
    (C2_PushBack_appends (throwing_copy 13) [13] 4 5 (by decide)
      (fun h => absurd h (by decide))).1.2.2.2.2⟩

/-- C4. `Insert(begin() + i, x)` and `Emplace` on a vector with elements `xs`,
`i <= xs.length`: the call returns the iterator `begin() + i`, the elements are
those before `i`, then `x`, then those from `i` on, each one index higher, and
the size is one more; this holds for a full vector (reallocation) and for one
with spare capacity (in place). Only the full vector relocates, and only then
the relocation is required not to throw; the in-place path only moves. -/
theorem C4_Insert_shifts (E : ElemType T) (xs : List T) (cap i : Nat) (x : T)
    (hcap : xs.length ≤ cap) (hi : i ≤ xs.length) (hok : xs.length = cap → E.relocatable xs) :
    ((holding xs cap).Insert E i x = (holding xs cap).Emplace E i x) ∧
    ((holding xs cap).Emplace E i x).ret = some i ∧
    ((holding xs cap).Emplace E i x).self.toList = xs.take i ++ x :: xs.drop i ∧
    ((holding xs cap).Emplace E i x).self.Size = xs.length + 1 ∧
    (∀ j, j < i → ((holding xs cap).Emplace E i x).self.get j = xs[j]?) ∧
    ((holding xs cap).Emplace E i x).self.get i = some x ∧
    (∀ j, i ≤ j → j < xs.length →
      ((holding xs cap).Emplace E i x).self.get (j + 1) = xs[j]?) ∧
    ((holding xs cap).Emplace E i x).self =
      holding (xs.take i ++ x :: xs.drop i)
        (if xs.length = cap then max 1 (2 * cap) else cap) := by
  have h := Emplace_holding E xs cap i x hcap hi hok
  have hlen := length_insert xs x i hi
  have hle : (xs.take i ++ x :: xs.drop i).length ≤
      (if xs.length = cap then max 1 (2 * cap) else cap) := by
    rw [hlen]
    split <;> omega
  refine ⟨rfl, h.2, ?_, ?_, ?_, ?_, ?_, h.1⟩
  · rw [h.1]; exact toList_holding _ _ hle
  · rw [h.1]; simp [hlen]
  · intro j hj
    rw [h.1, get_holding _ _ _ hle, getElem?_insert xs x i j hi, if_pos hj]
  · rw [h.1, get_holding _ _ _ hle, getElem?_insert xs x i i hi, if_neg (by omega), if_pos rfl]
  · intro j h1 h2
    rw [h.1, get_holding _ _ _ hle, getElem?_insert xs x i (j + 1) hi, if_neg (by omega),
      if_neg (by omega)]
    rfl

/-- C4 at concrete inputs: an insertion that reallocates, and one in place for
an element type whose copy of 13 throws. -/
theorem C4_Insert_shifts_witness :
    ((holding [1, 2, 3] 3).Emplace int_like 1 9).self = holding [1, 9, 2, 3] 6 ∧
      ((holding [13, 1] 4).Emplace (throwing_copy 13) 1 9).ret = some 1 ∧
      ((holding [13, 1] 4).Emplace (throwing_copy 13) 1 9).self = holding [13, 9, 1] 4 :=
  ⟨(C4_Insert_shifts int_like [1, 2, 3] 3 1 9 (by decide) (by decide)
      (fun _ => Or.inl rfl)).2.2.2.2.2.2.2,
    (C4_Insert_shifts (throwing_copy 13) [13, 1] 4 1 9 (by decide) (by decide)
      (fun h => absurd h (by decide))).2.1,
    (C4_Insert_shifts (throwing_copy 13) [13, 1] 4 1 9 (by decide) (by decide)
      (fun h => absurd h (by decide))).2.2.2.2.2.2.2⟩

/-- C5. `Erase(begin() + i)` on a vector with elements `xs`, `i < xs.length`:
the elements are `xs` without the one at `i`, in order, the size is one less,
the capacity is unchanged and the iterator `begin() + i` is returned. -/
theorem C5_Erase_removes (E : ElemType T) (xs : List T) (cap i : Nat)
    (hcap : xs.length ≤ cap) (hi : i < xs.length) :
    ((holding xs cap).Erase E i).ret = some i ∧
    ((holding xs cap).Erase E i).self.toList = xs.take i ++ xs.drop (i + 1) ∧
    ((holding xs cap).Erase E i).self.Size = xs.length - 1 ∧
    ((holding xs cap).Erase E i).self.Capacity = cap ∧
    ((holding xs cap).Erase E i).self = holding (xs.take i ++ xs.drop (i + 1)) cap := by
  have h := Erase_holding E xs cap i hcap hi
  have hlen : (xs.eraseIdx i).length = xs.length - 1 := List.length_eraseIdx_of_lt hi
  have he : xs.eraseIdx i = xs.take i ++ xs.drop (i + 1) := List.eraseIdx_eq_take_drop_succ xs i
  rw [h, ← he]
  refine ⟨rfl, toList_holding _ _ (by omega), ?_, rfl, rfl⟩
  simp [hlen]

/-- C5 at a concrete input: erasing the first of `[1, 9, 2, 3]`. -/
theorem C5_Erase_removes_witness :
    ([1, 9, 2, 3] : List Nat).length ≤ 6 ∧
      ((holding [1, 9, 2, 3] 6).Erase int_like 0).self = holding [9, 2, 3] 6 :=
  ⟨by decide, (C5_Erase_removes int_like [1, 9, 2, 3] 6 0 (by decide) (by decide)).2.2.2.2⟩

/-- C6. The scenario: `Vector(3)` filled through `operator[]` with `[1, 2, 3]`;
`Insert` of 9 at position 1 gives `[1, 9, 2, 3]`, size 4; `Erase` at position 0
gives `[9, 2, 3]`, size 3; `PushBack(7)` gives `[9, 2, 3, 7]`, size 4. -/
theorem C6_scenario :
    scenario_start.toList = [1, 2, 3] ∧ scenario_start.Size = 3 ∧
    (scenario_start.Insert int_like 1 9).ret = some 1 ∧
    scenario_inserted.toList = [1, 9, 2, 3] ∧ scenario_inserted.Size = 4 ∧
    (scenario_inserted.Erase int_like 0).ret = some 0 ∧
    scenario_erased.toList = [9, 2, 3] ∧ scenario_erased.Size = 3 ∧
    (scenario_erased.PushBack int_like 7).ret = some () ∧
    scenario_pushed.toList = [9, 2, 3, 7] ∧ scenario_pushed.Size = 4 := by
  decide

end Claims2

section Claims3
variable {T : Type}
open Vector

theorem relocatable_append_left (E : ElemType T) (xs ys : List T)
    (h : E.relocatable (xs ++ ys)) : E.relocatable xs := by
  rcases h with h | h
  · exact Or.inl h
  · exact Or.inr (fun x hx => h x (List.mem_append_left _ hx))

theorem PushBack_holding (E : ElemType T) (xs : List T) (cap : Nat) (x : T)
    (hcap : xs.length ≤ cap) (hok : xs.length = cap → E.relocatable xs) :
    ((holding xs cap).PushBack E x).self =
        holding (xs ++ [x]) (if xs.length = cap then max 1 (2 * cap) else cap) ∧
      ((holding xs cap).PushBack E x).ret = some () := by
  have h := EmplaceBack_holding E xs cap x hcap hok
  have hp := PushBack_eq_EmplaceBack E (holding xs cap) x
  rw [hp.1, hp.2.2, h.1, h.2]
  exact ⟨rfl, rfl⟩

theorem push_all_holding (E : ElemType T) (ys xs : List T) (cap : Nat)
    (hcap : xs.length ≤ cap)
    (hok : ∀ j, j < ys.length → xs.length + j = capacity_after cap xs.length j →
      E.relocatable ((xs ++ ys).take (xs.length + j))) :
    push_all E (holding xs cap) ys =
      some (holding (xs ++ ys) (capacity_after cap xs.length ys.length)) ∧
    (xs ++ ys).length ≤ capacity_after cap xs.length ys.length := by
  induction ys generalizing xs cap with
  | nil => simpa [push_all, capacity_after] using hcap
  | cons y ys ih =>
    have hxs : xs.length = cap → E.relocatable xs := by
      intro hfull
      have h0 := hok 0 (by simp) (by simpa [capacity_after] using hfull)
      simpa using h0
    have h := PushBack_holding E xs cap y hcap hxs
    have hle : (xs ++ [y]).length ≤ (if xs.length = cap then max 1 (2 * cap) else cap) := by
      rw [List.length_append, List.length_singleton]
      split <;> omega
    have e : (xs ++ [y]).length = xs.length + 1 := by simp
    have hok' : ∀ j, j < ys.length →
        (xs ++ [y]).length + j =
          capacity_after (if xs.length = cap then max 1 (2 * cap) else cap)
            (xs ++ [y]).length j →
        E.relocatable (((xs ++ [y]) ++ ys).take ((xs ++ [y]).length + j)) := by
      intro j hj hc
      rw [e] at hc ⊢
      have h1 := hok (j + 1) (by simpa using hj)
        (by rw [capacity_after, ← hc]; omega)
      have e2 : xs.length + (j + 1) = xs.length + 1 + j := by omega
      rw [e2] at h1
      simpa using h1
    have ih' := ih (xs ++ [y]) _ hle hok'
    simp only [push_all, h.1, h.2]
    rw [e] at ih'
    simpa [capacity_after] using ih'

theorem tight_step (n c : Nat) (h : tight n c) :
    tight (n + 1) (if n = c then max 1 (2 * c) else c) := by
  right
  refine ⟨by omega, ?_⟩
  rcases h with ⟨h1, h2⟩ | ⟨h1, k, h2, h3, h4⟩
  · subst h1; subst h2
    exact ⟨0, by simp, by simp, Or.inl rfl⟩
  · by_cases hn : n = c
    · rw [if_pos hn]
      have hpos : 0 < 2 ^ k := Nat.pow_pos (by omega)
      refine ⟨k + 1, ?_, ?_, Or.inr ?_⟩
      · rw [h2, pow_succ]; omega
      · rw [pow_succ]; omega
      · simp only [Nat.add_sub_cancel]; omega
    · rw [if_neg hn]
      refine ⟨k, h2, by omega, ?_⟩
      rcases h4 with h4 | h4
      · exact Or.inl h4
      · exact Or.inr (by omega)

theorem tight_capacity_after (size cap n : Nat) (h : tight size cap) :
    tight (size + n) (capacity_after cap size n) := by
  induction n generalizing size cap with
  | zero => exact h
  | succ n ih =>
    have := ih (size + 1) _ (tight_step size cap h)
    simpa [capacity_after, Nat.add_assoc, Nat.add_comm 1 n] using this

theorem tight_eq_clog (n c : Nat) (h : tight n c) :
    c = if n = 0 then 0 else 2 ^ Nat.clog 2 n := by
  rcases h with ⟨h1, h2⟩ | ⟨h1, k, h2, h3, h4⟩
  · simp [h1, h2]
  · rw [if_neg (by omega), h2]
    congr 1
    apply le_antisymm
    · rcases h4 with h4 | h4
      · omega
      · have := (Nat.pow_lt_iff_lt_clog (by omega : 1 < 2)).mp h4
        omega
    · exact (Nat.le_pow_iff_clog_le (by omega : 1 < 2)).mp h3

theorem ctor_default_eq_holding : (ctor_default : Vector T) = holding [] 0 := rfl

end Claims3

section Claims4
variable {T : Type}
open Vector

theorem capacity_after_succ (cap size n : Nat) :
    capacity_after cap size (n + 1) =
      if size + n = capacity_after cap size n then max 1 (2 * capacity_after cap size n)
      else capacity_after cap size n := by
  induction n generalizing cap size with
  | zero => simp [capacity_after]
  | succ n ih =>
    have e : size + (n + 1) = size + 1 + n := by omega
    rw [capacity_after, ih, e]
    rfl

/-- C3. From a default-constructed vector, `n` successive `PushBack` calls all
return, the size is then `n` and the capacity is 0 for `n = 0` and otherwise the
smallest power of two that is at least `n`. One more `PushBack` keeps the
capacity unless the vector is full, and then takes it from 0 to 1 or doubles it.
The calls that relocate objects are those made at a size `2 ^ k`, and only these
relocations, of the first `2 ^ k` elements, are required not to throw. -/
theorem C3_PushBack_capacity_doubles (E : ElemType T) (xs : List T)
    (hok : ∀ k, 2 ^ k < xs.length → E.relocatable (xs.take (2 ^ k))) :
    ∃ v, push_all E ctor_default xs = some v ∧ v.Size = xs.length ∧ v.toList = xs ∧
      v.Capacity = (if xs.length = 0 then 0 else 2 ^ Nat.clog 2 xs.length) ∧
      xs.length ≤ v.Capacity ∧
      (∀ j, xs.length ≤ 2 ^ j → v.Capacity ≤ 2 ^ j) ∧
      (∀ x, (xs.length = v.Capacity → E.relocatable xs) →
        ∃ w, push_all E ctor_default (xs ++ [x]) = some w ∧
          w.Capacity = (if xs.length = v.Capacity then max 1 (2 * v.Capacity) else v.Capacity) ∧
          (w.Capacity = v.Capacity ∨ (v.Capacity = 0 ∧ w.Capacity = 1) ∨
            (v.Capacity ≠ 0 ∧ w.Capacity = 2 * v.Capacity))) := by
  have h0 : tight 0 0 := Or.inl ⟨rfl, rfl⟩
  have hreloc : ∀ (zs : List T) (j : Nat), j ≤ xs.length → j < (xs ++ zs).length →
      (j = xs.length → E.relocatable xs) →
      0 + j = capacity_after 0 0 j → E.relocatable ((xs ++ zs).take j) := by
    intro zs j hj _ hlast hc
    rw [List.take_append_of_le_length hj]
    rcases Nat.lt_or_ge j xs.length with hlt | hge
    · have ht := tight_capacity_after 0 0 j h0
      rw [← hc] at ht
      rcases ht with ⟨hz, -⟩ | ⟨-, k, hk, -, -⟩
      · have hz' : j = 0 := by omega
        rw [hz']
        exact Or.inr (fun x hx => absurd hx (by simp))
      · have hk' : j = 2 ^ k := by omega
        rw [hk']
        exact hok k (by omega)
    · have hjn : j = xs.length := by omega
      rw [hjn, List.take_length]
      exact hlast hjn
  have hp := push_all_holding E xs [] 0 (Nat.le_refl 0) (fun j hj hc => by
    have h := hreloc [] j (by omega) (by simpa using hj) (fun h => by omega)
      (by simpa using hc)
    simpa using h)
  have ht := tight_capacity_after 0 0 xs.length h0
  have hc := tight_eq_clog _ _ ht
  simp only [Nat.zero_add, List.nil_append, List.length_nil] at hp ht hc
  refine ⟨_, hp.1, rfl, toList_holding _ _ hp.2, hc, hp.2, ?_, ?_⟩
  · intro j hj
    show capacity_after 0 0 xs.length ≤ 2 ^ j
    rw [hc]
    split
    · exact Nat.zero_le _
    · exact Nat.pow_le_pow_right (by omega)
        ((Nat.le_pow_iff_clog_le (by omega : 1 < 2)).mp hj)
  · intro x hx
    have hx' : xs.length = capacity_after 0 0 xs.length → E.relocatable xs := hx
    have hp' := push_all_holding E (xs ++ [x]) [] 0 (Nat.le_refl 0) (fun j hj hc => by
      have hj' : j < xs.length + 1 := by simpa using hj
      have hc' : 0 + j = capacity_after 0 0 j := by simpa using hc
      have h := hreloc [x] j (by omega) (by simpa using hj)
        (fun h => hx' (by rw [← h]; omega)) hc'
      simpa using h)
    simp only [List.nil_append, List.length_nil, List.length_append, List.length_singleton]
      at hp'
    refine ⟨_, hp'.1, ?_, ?_⟩
    · show capacity_after 0 0 (xs.length + 1) = _
      rw [capacity_after_succ, Nat.zero_add]
      rfl
    · show capacity_after 0 0 (xs.length + 1) = capacity_after 0 0 xs.length ∨
        (capacity_after 0 0 xs.length = 0 ∧ capacity_after 0 0 (xs.length + 1) = 1) ∨
        (capacity_after 0 0 xs.length ≠ 0 ∧
          capacity_after 0 0 (xs.length + 1) = 2 * capacity_after 0 0 xs.length)
      rw [capacity_after_succ, Nat.zero_add]
      split <;> omega

/-- C3 at a concrete input: the pushes of `[1, 2, 13]` for an element type whose
copy of 13 throws; 13 is pushed after the last reallocation and is never
relocated, and the capacity ends at 4. -/
theorem C3_PushBack_capacity_doubles_witness :
    ∃ v, push_all (throwing_copy 13) ctor_default [1, 2, 13] = some v ∧ v.Size = 3 ∧
      v.toList = [1, 2, 13] ∧ v.Capacity = 2 ^ Nat.clog 2 3 := by
  obtain ⟨v, h1, h2, h3, h4, -⟩ :=
    C3_PushBack_capacity_doubles (throwing_copy 13) [1, 2, 13] (fun k hk => by
      have hk3 : 2 ^ k < 3 := hk
      have hk2 : k < 2 := by
        by_contra hge
        have h4 : 2 ^ 2 ≤ 2 ^ k := Nat.pow_le_pow_right (by omega) (by omega)
        omega
      interval_cases k <;> exact Or.inr (by decide))
  exact ⟨v, h1, h2, h3, h4⟩

/-- C7 as stated fails: after `b = std::move(a)` with `a = [1]` and
`b = [2, 3]`, `a` has size 2 and capacity 2. -/
theorem C7_counterexample :
    ¬ (((holding [2, 3] 2).assign_move (holding [1] 1)).2.Size = 0 ∧
        ((holding [2, 3] 2).assign_move (holding [1] 1)).2.Capacity = 0) := by
  decide

/-- C7, amended. Move assignment `b = std::move(a)` of distinct vectors
exchanges them: `b` gets the buffer, size and capacity `a` had, and `a` gets
those `b` had; so `a` ends with size 0 and capacity 0 exactly when `b` had size
0 and capacity 0 before. -/
theorem C7_move_assignment_swaps (a b : Vector T) :
    (b.assign_move a).1 = a ∧ (b.assign_move a).2 = b ∧
    (((b.assign_move a).2.Size = 0 ∧ (b.assign_move a).2.Capacity = 0) ↔
      (b.Size = 0 ∧ b.Capacity = 0)) :=
  ⟨rfl, rfl, Iff.rfl⟩

end Claims4

section Claims5
variable {T : Type}
open Vector

theorem by_copy (E : ElemType T) (hnm : E.nothrow_move_constructible = false)
    (hcc : E.copy_constructible = true) : E.relocates_by_move = false := by
  simp [ElemType.relocates_by_move, hnm, hcc]

theorem PushBack_throws (E : ElemType T) (xs : List T) (cap : Nat) (x : T)
    (hm : E.relocates_by_move = false) (hfull : xs.length = cap)
    (k : Nat) (e : T) (hk : xs[k]? = some e) (hthrow : E.copy_throws e = true) :
    (holding xs cap).PushBack E x =
      ⟨holding xs cap, none,
        some (RawMemory.owning (construct_at (List.replicate (max 1 (2 * cap)) none) cap x)
          (max 1 (2 * cap)))⟩ := by
  have h := EmplaceBack_throws E xs cap x hm hfull k e hk hthrow
  have hp := PushBack_eq_EmplaceBack E (holding xs cap) x
  rw [h] at hp
  cases hr : (holding xs cap).PushBack E x with
  | mk s r rel =>
    rw [hr] at hp
    simp only [Option.map_none'] at hp
    rw [hp.1, hp.2.1, hp.2.2]

/-- C8. Strong guarantee under throwing relocation. The element type is
copy-constructible and its move constructor is not `noexcept`; the vector holds
`xs` and copying its `k`-th element, `1 <= k <= size`, throws. Then `Reserve(n)`
with `n > capacity` and, for a full vector, `PushBack`, `EmplaceBack`, `Emplace`
and `Insert` at any position report the failure and leave the vector (buffer,
elements, size and capacity) exactly as it was. -/
theorem C8_strong_guarantee (E : ElemType T) (hnm : E.nothrow_move_constructible = false)
    (hcc : E.copy_constructible = true) (xs : List T) (cap k : Nat) (e : T)
    (hcap : xs.length ≤ cap) (_hk1 : 1 ≤ k) (_hk2 : k ≤ xs.length)
    (hk : xs[k - 1]? = some e) (hthrow : E.copy_throws e = true) :
    (∀ n, cap < n →
      ((holding xs cap).Reserve E n).ret = none ∧
      ((holding xs cap).Reserve E n).self = holding xs cap) ∧
    (xs.length = cap → ∀ x,
      (((holding xs cap).PushBack E x).ret = none ∧
        ((holding xs cap).PushBack E x).self = holding xs cap) ∧
      (((holding xs cap).EmplaceBack E x).ret = none ∧
        ((holding xs cap).EmplaceBack E x).self = holding xs cap) ∧
      (∀ i, i ≤ xs.length →
        ((holding xs cap).Emplace E i x).ret = none ∧
        ((holding xs cap).Emplace E i x).self = holding xs cap ∧
        ((holding xs cap).Insert E i x).ret = none ∧
        ((holding xs cap).Insert E i x).self = holding xs cap)) := by
  have hm := by_copy E hnm hcc
  refine ⟨fun n hn => ?_, fun hfull x => ⟨?_, ?_, fun i hi => ?_⟩⟩
  · rw [Reserve_throws E xs cap n hm hcap hn (k - 1) e hk hthrow]
    exact ⟨rfl, rfl⟩
  · rw [PushBack_throws E xs cap x hm hfull (k - 1) e hk hthrow]
    exact ⟨rfl, rfl⟩
  · rw [EmplaceBack_throws E xs cap x hm hfull (k - 1) e hk hthrow]
    exact ⟨rfl, rfl⟩
  · have hE : ((holding xs cap).Emplace E i x).ret = none ∧
        ((holding xs cap).Emplace E i x).self = holding xs cap := by
      by_cases hend : i = xs.length
      · have he : (holding xs cap).Emplace E i x = (holding xs cap).EmplaceBack E x := by
          unfold Emplace
          rw [if_pos (show i = (holding xs cap).size_ from hend)]
        rw [he, EmplaceBack_throws E xs cap x hm hfull (k - 1) e hk hthrow]
        exact ⟨rfl, rfl⟩
      · rw [(Emplace_throws E xs cap i x hm hfull (by omega) (k - 1) e hk hthrow).1]
        exact ⟨rfl, rfl⟩
    exact ⟨hE.1, hE.2, hE.1, hE.2⟩

/-- C8 at a concrete input: the vector `[1, 13]` is full and copying 13 throws;
`PushBack(5)` reports the failure and leaves `[1, 13]` with capacity 2. -/
theorem C8_strong_guarantee_witness :
    ((holding [1, 13] 2).PushBack (throwing_copy 13) 5).ret = none ∧
      ((holding [1, 13] 2).PushBack (throwing_copy 13) 5).self = holding [1, 13] 2 :=
  ((C8_strong_guarantee (throwing_copy 13) rfl rfl [1, 13] 2 2 13 (by decide) (by decide)
    (by decide) rfl rfl).2 rfl 5).1

/-- C9 on the code: the vector `[13]` is full and copying 13 throws. `PushBack(5)`
and `EmplaceBack(5)` throw, and the new buffer of 2 slots is released while the
new element 5, built at index 1, is still alive: one object was constructed in
the new buffer and none was destroyed. The old buffer is untouched. -/
theorem C9_new_element_not_destroyed :
    (holding [13] 1).PushBack (throwing_copy 13) 5 =
      ⟨holding [13] 1, none, some ⟨Buffer.block [none, some 5], 2⟩⟩ ∧
    (holding [13] 1).EmplaceBack (throwing_copy 13) 5 =
      ⟨holding [13] 1, none, some ⟨Buffer.block [none, some 5], 2⟩⟩ ∧
    (RawMemory.leaked ⟨Buffer.block [none, some 5], 2⟩ : List Nat) = [5] := by
  decide

/-- C10. The growth path of `Emplace` and `Insert` at an interior position `i`
of a full vector holding `xs`, for an element type that relocates by copy, when
copying the `k`-th element throws. The call reports the failure, the vector
(old buffer, elements, size, capacity) is exactly as before, and the new buffer
is released with every slot uninitialized. If the relocation of `[0, i)` threw,
its handler found the new element as the only live object of the new buffer; if
the relocation of `[i, size)` threw, its handler found the `i` relocated
elements and the new element, `i + 1` objects, and in both cases the old buffer
was as before. -/
theorem C10_Emplace_rolls_back (E : ElemType T) (hnm : E.nothrow_move_constructible = false)
    (hcc : E.copy_constructible = true) (xs : List T) (cap i k : Nat) (e x : T)
    (hfull : xs.length = cap) (hi : i < xs.length) (_hk1 : 1 ≤ k) (_hk2 : k ≤ xs.length)
    (hk : xs[k - 1]? = some e) (hthrow : E.copy_throws e = true) :
    (holding xs cap).Insert E i x = (holding xs cap).Emplace E i x ∧
    ((holding xs cap).Emplace E i x).ret = none ∧
    ((holding xs cap).Emplace E i x).self = holding xs cap ∧
    ((holding xs cap).Emplace E i x).released = some (RawMemory.ctor (max 1 (2 * cap))) ∧
    (RawMemory.ctor (max 1 (2 * cap)) : RawMemory T).leaked = [] ∧
    ((Emplace_try_first E (holding xs cap) i x).threw = true →
      (Emplace_try_first E (holding xs cap) i x).data = (holding xs cap).data_ ∧
      (Emplace_try_first E (holding xs cap) i x).new_data.leaked = [x] ∧
      ((Emplace_try_first E (holding xs cap) i x).new_data.store
        (destroy_at (Emplace_try_first E (holding xs cap) i x).new_data.GetAddress i)).leaked
          = []) ∧
    ((Emplace_try_first E (holding xs cap) i x).threw = false →
      (Emplace_try_second E (holding xs cap) i x).threw = true ∧
      (Emplace_try_second E (holding xs cap) i x).data = (holding xs cap).data_ ∧
      (Emplace_try_second E (holding xs cap) i x).new_data.leaked = xs.take i ++ [x] ∧
      ((Emplace_try_second E (holding xs cap) i x).new_data.store
        (destroy_n (Emplace_try_second E (holding xs cap) i x).new_data.GetAddress 0
          (i + 1))).leaked = []) := by
  have hm := by_copy E hnm hcc
  have h := Emplace_throws E xs cap i x hm hfull hi (k - 1) e hk hthrow
  have hc : 0 < max 1 (2 * cap) := by omega
  have hic : i < max 1 (2 * cap) := by omega
  have hleak0 : (RawMemory.ctor (max 1 (2 * cap)) : RawMemory T).leaked = [] := by
    rw [RawMemory.ctor_eq_owning]
    unfold RawMemory.leaked
    rw [RawMemory.GetAddress_owning _ _ (by simp)]
    exact List.filterMap_replicate_of_none rfl
  have hrel := h.1
  refine ⟨rfl, by rw [hrel], by rw [hrel], by rw [hrel], hleak0, fun ht => ?_, fun ht => ?_⟩
  · have h1 := h.2.1 ht
    have hr : (holding xs cap).Emplace E i x =
        ⟨⟨(Emplace_try_first E (holding xs cap) i x).data, (holding xs cap).size_⟩, none,
          some ((Emplace_try_first E (holding xs cap) i x).new_data.store
            (destroy_at (Emplace_try_first E (holding xs cap) i x).new_data.GetAddress i))⟩ := by
      unfold Emplace
      rw [if_neg (show ¬ i = (holding xs cap).size_ from by
          show ¬ i = xs.length
          omega),
        if_pos (show (holding xs cap).size_ = (holding xs cap).Capacity from hfull)]
      simp only [ht, if_true]
    rw [hrel] at hr
    have hr2 := congrArg Outcome.released hr
    simp only [Option.some.injEq] at hr2
    refine ⟨by rw [h1], ?_, by rw [← hr2]; exact hleak0⟩
    rw [h1]
    unfold RawMemory.leaked
    rw [RawMemory.GetAddress_owning _ _ (by simp)]
    exact filterMap_set_replicate _ i x hic
  · have h2 := h.2.2 ht
    have hu : (Emplace_try_second E (holding xs cap) i x).threw = true := by rw [h2]
    have hr : (holding xs cap).Emplace E i x =
        ⟨⟨(Emplace_try_second E (holding xs cap) i x).data, (holding xs cap).size_⟩, none,
          some ((Emplace_try_second E (holding xs cap) i x).new_data.store
            (destroy_n (Emplace_try_second E (holding xs cap) i x).new_data.GetAddress 0
              (i + 1)))⟩ := by
      unfold Emplace
      rw [if_neg (show ¬ i = (holding xs cap).size_ from by
          show ¬ i = xs.length
          omega),
        if_pos (show (holding xs cap).size_ = (holding xs cap).Capacity from hfull)]
      simp only [ht, hu, if_true, Bool.false_eq_true, if_false]
    rw [hrel] at hr
    have hr2 := congrArg Outcome.released hr
    simp only [Option.some.injEq] at hr2
    refine ⟨hu, by rw [h2], ?_, by rw [← hr2]; exact hleak0⟩
    rw [h2]
    unfold RawMemory.leaked
    rw [RawMemory.GetAddress_owning _ _ (length_filled _ _ (by simp; omega))]
    exact filterMap_filled _ _

/-- C10 at a concrete input: inserting 5 at position 1 of the full vector
`[1, 13, 2]` when copying 13 throws. -/
theorem C10_Emplace_rolls_back_witness :
    ((holding [1, 13, 2] 3).Emplace (throwing_copy 13) 1 5).ret = none ∧
      ((holding [1, 13, 2] 3).Emplace (throwing_copy 13) 1 5).self = holding [1, 13, 2] 3 ∧
      ((holding [1, 13, 2] 3).Emplace (throwing_copy 13) 1 5).released =
        some (RawMemory.ctor 6) :=
  have h := C10_Emplace_rolls_back (throwing_copy 13) rfl rfl [1, 13, 2] 3 1 2 13 5 rfl
    (by decide) (by decide) (by decide) rfl rfl
  ⟨h.2.1, h.2.2.1, h.2.2.2.1⟩

end Claims5

section CopyN
variable {T : Type}

@[simp] theorem length_copy_n (src : Slots T) (first count : Nat) (dst : Slots T) (d_first : Nat) :
    (copy_n src first count dst d_first).length = dst.length := by
  induction count generalizing first dst d_first with
  | zero => rfl
  | succ n ih => simp [copy_n, ih]

theorem getElem?_copy_n (src : Slots T) (first count : Nat) (dst : Slots T) (d_first k : Nat) :
    (copy_n src first count dst d_first)[k]? =
      if d_first ≤ k ∧ k < d_first + count ∧ k < dst.length
      then some (read src (first + (k - d_first))) else dst[k]? := by
  induction count generalizing first dst d_first with
  | zero =>
    rw [if_neg (show ¬ (d_first ≤ k ∧ k < d_first + 0 ∧ k < dst.length) by omega)]
    rfl
  | succ n ih =>
    simp only [copy_n]
    rw [ih, List.length_set, List.getElem?_set]
    by_cases h1 : d_first = k
    · subst h1
      by_cases h2 : d_first < dst.length
      · rw [if_neg (show ¬ (d_first + 1 ≤ d_first ∧ d_first < d_first + 1 + n ∧
            d_first < dst.length) by omega), if_pos rfl, if_pos h2,
          if_pos (show d_first ≤ d_first ∧ d_first < d_first + (n + 1) ∧
            d_first < dst.length by omega)]
        simp
      · rw [if_neg (show ¬ (d_first + 1 ≤ d_first ∧ d_first < d_first + 1 + n ∧
            d_first < dst.length) by omega), if_pos rfl, if_neg h2,
          if_neg (show ¬ (d_first ≤ d_first ∧ d_first < d_first + (n + 1) ∧
            d_first < dst.length) by omega), List.getElem?_eq_none (by omega)]
    · by_cases h2 : d_first ≤ k ∧ k < d_first + (n + 1) ∧ k < dst.length
      · rw [if_pos (show d_first + 1 ≤ k ∧ k < d_first + 1 + n ∧ k < dst.length by omega),
          if_pos h2]
        congr 2
        omega
      · rw [if_neg (show ¬ (d_first + 1 ≤ k ∧ k < d_first + 1 + n ∧ k < dst.length) by omega),
          if_neg h1, if_neg h2]

end CopyN

namespace Vector
section Ctors
variable {T : Type}

theorem ctor_size_holding (E : ElemType T) (n : Nat) :
    ctor_size E n = holding (List.replicate n E.value_init) n := by
  unfold ctor_size
  dsimp only
  rw [RawMemory.ctor_eq_owning, RawMemory.GetAddress_owning _ _ (by simp),
    RawMemory.store_owning]
  have hfin : uninitialized_value_construct_n E (List.replicate n (none : Option T)) 0 n =
      filled (List.replicate n E.value_init) n := by
    apply eq_filled _ _ n (by simp) (by simp)
    · intro k hk
      have hk' : k < n := by simpa using hk
      rw [getElem?_uninitialized_value_construct_n, List.length_replicate,
        if_pos (show 0 ≤ k ∧ k < 0 + n ∧ k < n by omega), List.getElem?_replicate, if_pos hk']
    · intro k h1 h2
      have h1' : n ≤ k := by simpa using h1
      omega
  rw [hfin]
  simp [holding]

theorem ctor_copy_holding (E : ElemType T) (xs : List T) (cap : Nat) (hcap : xs.length ≤ cap)
    (hok : ∀ x ∈ xs, E.copy_throws x = false) :
    ctor_copy E (holding xs cap) = Except.ok (holding xs xs.length) := by
  unfold ctor_copy
  have hsz : (holding xs cap).size_ = xs.length := rfl
  have hdata : (holding xs cap).data_ = RawMemory.owning (filled xs cap) cap := rfl
  dsimp only
  rw [hsz, hdata, RawMemory.ctor_eq_owning,
    RawMemory.GetAddress_owning _ _ (length_filled xs cap hcap),
    RawMemory.GetAddress_owning (List.replicate xs.length none) xs.length (by simp),
    RawMemory.store_owning]
  have h := uninitialized_copy_loop_ok E (filled xs cap) 0 0 0 xs.length
    (List.replicate xs.length none)
    (fun j _ _ x hx => hok x (by
      rw [read_filled xs cap _ hcap] at hx
      exact List.getElem?_mem hx))
  simp only [uninitialized_copy_n]
  rw [h.1]
  have hfin : (uninitialized_copy_loop E (filled xs cap) 0 0 0 xs.length
      (List.replicate xs.length none)).2 = filled xs xs.length := by
    apply eq_filled _ _ xs.length (by simp) (Nat.le_refl _)
    · intro k hk
      rw [h.2 k, List.length_replicate,
        if_pos (show 0 + 0 ≤ k ∧ k < 0 + 0 + xs.length ∧ k < xs.length by omega),
        read_filled xs cap _ hcap]
      simp
    · intro k h1 h2
      omega
  rw [hfin]
  simp [holding]

theorem ctor_copy_throws (E : ElemType T) (xs : List T) (cap : Nat) (hcap : xs.length ≤ cap)
    (k : Nat) (e : T) (hk : xs[k]? = some e) (hthrow : E.copy_throws e = true) :
    ctor_copy E (holding xs cap) = Except.error (RawMemory.ctor xs.length) := by
  have hklt : k < xs.length := (List.getElem?_eq_some.mp hk).1
  unfold ctor_copy
  have hsz : (holding xs cap).size_ = xs.length := rfl
  have hdata : (holding xs cap).data_ = RawMemory.owning (filled xs cap) cap := rfl
  dsimp only
  rw [hsz, hdata, RawMemory.ctor_eq_owning,
    RawMemory.GetAddress_owning _ _ (length_filled xs cap hcap),
    RawMemory.GetAddress_owning (List.replicate xs.length none) xs.length (by simp),
    RawMemory.store_owning]
  simp only [uninitialized_copy_n]
  have ht := uninitialized_copy_loop_throws E (filled xs cap) 0 0 0 xs.length
    (List.replicate xs.length none)
    ⟨k, by omega, by omega, e, by rw [read_filled xs cap _ hcap]; simpa using hk, hthrow⟩
  have hr := uninitialized_copy_loop_threw E (filled xs cap) 0 0 0 xs.length
    (List.replicate xs.length none) ht
    (fun j _ _ => by rw [read_eq_getElem?, List.getElem?_replicate]; split <;> rfl)
  rw [ht, hr]
  simp [destroy_n]

theorem Reserve_holding (E : ElemType T) (xs : List T) (cap n : Nat)
    (hcap : xs.length ≤ cap) (hok : cap < n → E.relocatable xs) :
    ((holding xs cap).Reserve E n).self = holding xs (max cap n) ∧
      ((holding xs cap).Reserve E n).ret = some () := by
  unfold Reserve
  have hsz : (holding xs cap).size_ = xs.length := rfl
  have hdata : (holding xs cap).data_ = RawMemory.owning (filled xs cap) cap := rfl
  have hcp : (holding xs cap).data_.Capacity = cap := rfl
  by_cases hn : n ≤ cap
  · rw [hcp, if_pos hn]
    have : max cap n = cap := by omega
    rw [this]
    exact ⟨rfl, rfl⟩
  · rw [hcp, if_neg hn]
    have hmax : max cap n = n := by omega
    dsimp only [TransferObjectsN_all]
    rw [hsz, hdata, RawMemory.ctor_eq_owning]
    obtain ⟨s', d', heq, hs', hd', hget, -⟩ :=
      TransferObjectsN_ok E (filled xs cap) (List.replicate n none) cap n 0 xs.length 0
        (length_filled xs cap hcap) (by simp)
        (relocatable_reads E xs cap 0 xs.length hcap (hok (by omega)))
    rw [heq]
    simp only [Bool.false_eq_true, if_false, RawMemory.Swap_fst]
    have hfin : d' = filled xs n := by
      apply eq_filled d' xs n hd' (by omega)
      · intro k hk
        rw [hget k, if_pos (show 0 ≤ k ∧ k < 0 + xs.length ∧ k < n by omega),
          read_filled xs cap _ hcap]
        simp
      · intro k h1 h2
        rw [hget k, if_neg (show ¬ (0 ≤ k ∧ k < 0 + xs.length ∧ k < n) by omega),
          List.getElem?_replicate, if_pos h2]
    rw [hfin, hmax]
    exact ⟨rfl, trivial⟩

theorem PopBack_holding (xs : List T) (cap : Nat) (hcap : xs.length ≤ cap)
    (hpos : 0 < xs.length) :
    (holding xs cap).PopBack = holding xs.dropLast cap := by
  unfold PopBack
  have hsz : (holding xs cap).size_ = xs.length := rfl
  have hdata : (holding xs cap).data_ = RawMemory.owning (filled xs cap) cap := rfl
  rw [hsz, hdata, RawMemory.GetAddress_owning _ _ (length_filled xs cap hcap),
    RawMemory.store_owning]
  have hl : xs.dropLast.length = xs.length - 1 := List.length_dropLast xs
  have hfin : destroy_at (filled xs cap) (xs.length - 1) = filled xs.dropLast cap := by
    apply eq_filled _ _ cap (by simp [length_filled xs cap hcap]) (by omega)
    · intro k hk
      rw [hl] at hk
      rw [destroy_at, List.getElem?_set, if_neg (by omega), getElem?_filled xs cap k hcap,
        if_pos (by omega), List.dropLast_eq_take, List.getElem?_take, if_pos (by omega),
        List.getElem?_eq_getElem (by omega : k < xs.length)]
      rfl
    · intro k h1 h2
      rw [hl] at h1
      rw [destroy_at, List.getElem?_set, length_filled xs cap hcap]
      by_cases h3 : xs.length - 1 = k
      · rw [if_pos h3, if_pos (by omega)]
      · rw [if_neg h3, getElem?_filled xs cap k hcap, if_neg (by omega), if_pos h2]
  rw [hfin]
  simp [holding, hl]

end Ctors
end Vector

namespace Vector
section Ops4
variable {T : Type}

theorem Resize_holding (E : ElemType T) (xs : List T) (cap n : Nat)
    (hcap : xs.length ≤ cap) (hok : cap < n → E.relocatable xs) :
    ((holding xs cap).Resize E n).self =
        holding (xs.take n ++ List.replicate (n - xs.length) E.value_init) (max cap n) ∧
      ((holding xs cap).Resize E n).ret = some () := by
  unfold Resize
  have hsz : (holding xs cap).size_ = xs.length := rfl
  have hdata : (holding xs cap).data_ = RawMemory.owning (filled xs cap) cap := rfl
  rw [hsz]
  by_cases h1 : n < xs.length
  · rw [if_pos h1]
    dsimp only
    rw [hdata, RawMemory.GetAddress_owning _ _ (length_filled xs cap hcap),
      RawMemory.store_owning]
    have e0 : n - xs.length = 0 := by omega
    have hmax : max cap n = cap := by omega
    have hl : (xs.take n).length = n := by simp; omega
    rw [e0, hmax, List.replicate_zero, List.append_nil]
    have hfin : destroy_n (filled xs cap) n (xs.length - n) = filled (xs.take n) cap := by
      apply eq_filled _ _ cap (by simp [length_filled xs cap hcap]) (by omega)
      · intro k hk
        rw [hl] at hk
        rw [getElem?_destroy_n, if_neg (show ¬ (n ≤ k ∧ k < n + (xs.length - n) ∧
            k < (filled xs cap).length) by omega), getElem?_filled xs cap k hcap,
          if_pos (by omega), List.getElem?_take, if_pos hk,
          List.getElem?_eq_getElem (by omega : k < xs.length)]
        rfl
      · intro k h2 h3
        rw [hl] at h2
        rw [getElem?_destroy_n, length_filled xs cap hcap]
        by_cases h4 : k < xs.length
        · rw [if_pos (by omega)]
        · rw [if_neg (by omega), getElem?_filled xs cap k hcap, if_neg h4, if_pos h3]
    rw [hfin]
    simp [holding, hl]
  · rw [if_neg h1]
    by_cases h2 : n > xs.length
    · rw [if_pos h2]
      have hr := Reserve_holding E xs cap n hcap hok
      dsimp only
      rw [hr.2]
      dsimp only
      rw [hr.1]
      have hsz2 : (holding xs (max cap n)).size_ = xs.length := rfl
      have hdata2 : (holding xs (max cap n)).data_ =
          RawMemory.owning (filled xs (max cap n)) (max cap n) := rfl
      have hcap2 : xs.length ≤ max cap n := by omega
      rw [hsz2, hdata2, RawMemory.GetAddress_owning _ _ (length_filled xs _ hcap2),
        RawMemory.store_owning]
      have ht : xs.take n = xs := List.take_of_length_le (by omega)
      have hl : (xs ++ List.replicate (n - xs.length) E.value_init).length = n := by
        simp; omega
      rw [ht]
      have hfin : uninitialized_value_construct_n E (filled xs (max cap n)) xs.length
          (n - xs.length) =
          filled (xs ++ List.replicate (n - xs.length) E.value_init) (max cap n) := by
        apply eq_filled _ _ (max cap n) (by simp [length_filled xs _ hcap2]) (by omega)
        · intro k hk
          rw [hl] at hk
          rw [getElem?_uninitialized_value_construct_n, length_filled xs _ hcap2,
            List.getElem?_append]
          by_cases h3 : k < xs.length
          · rw [if_neg (by omega), if_pos h3, getElem?_filled xs _ k hcap2, if_pos h3,
              List.getElem?_eq_getElem h3]
            rfl
          · rw [if_pos (by omega), if_neg h3, List.getElem?_replicate, if_pos (by omega)]
        · intro k h3 h4
          rw [hl] at h3
          rw [getElem?_uninitialized_value_construct_n, length_filled xs _ hcap2,
            if_neg (by omega), getElem?_filled xs _ k hcap2, if_neg (by omega), if_pos h4]
      rw [hfin]
      simp [holding]
      omega
    · rw [if_neg h2]
      have e : n = xs.length := by omega
      have hmax : max cap n = cap := by omega
      subst e
      dsimp only
      rw [hmax, List.take_length, Nat.sub_self, List.replicate_zero, List.append_nil]
      exact ⟨rfl, rfl⟩

theorem assign_copy_holding (E : ElemType T) (xs ys : List T) (cap rcap : Nat)
    (hcap : xs.length ≤ cap) (hrcap : ys.length ≤ rcap)
    (hok : ∀ y ∈ ys, E.copy_throws y = false) :
    ((holding xs cap).assign_copy E (holding ys rcap)).self =
        holding ys (if ys.length > cap then ys.length else cap) ∧
      ((holding xs cap).assign_copy E (holding ys rcap)).ret = some () := by
  unfold assign_copy
  have hsz : (holding xs cap).size_ = xs.length := rfl
  have hrsz : (holding ys rcap).size_ = ys.length := rfl
  have hdata : (holding xs cap).data_ = RawMemory.owning (filled xs cap) cap := rfl
  have hrdata : (holding ys rcap).data_ = RawMemory.owning (filled ys rcap) rcap := rfl
  have hcp : (holding xs cap).data_.Capacity = cap := rfl
  rw [hrsz, hcp, hsz]
  by_cases h1 : ys.length > cap
  · rw [if_pos h1, if_pos h1, ctor_copy_holding E ys rcap hrcap hok]
    exact ⟨rfl, rfl⟩
  · rw [if_neg h1, if_neg h1]
    dsimp only
    rw [hdata, hrdata, RawMemory.GetAddress_owning _ _ (length_filled xs cap hcap),
      RawMemory.GetAddress_owning _ _ (length_filled ys rcap hrcap)]
    have hlen : (copy_n (filled ys rcap) 0 (min xs.length ys.length) (filled xs cap) 0).length
        = cap := by rw [length_copy_n, length_filled xs cap hcap]
    by_cases h2 : ys.length < xs.length
    · rw [if_pos h2]
      dsimp only
      rw [RawMemory.store_owning]
      have hfin : destroy_n (copy_n (filled ys rcap) 0 (min xs.length ys.length)
          (filled xs cap) 0) ys.length (xs.length - ys.length) = filled ys cap := by
        apply eq_filled _ _ cap (by rw [length_destroy_n, hlen]) (by omega)
        · intro k hk
          rw [getElem?_destroy_n, if_neg (by omega), getElem?_copy_n,
            length_filled xs cap hcap,
            if_pos (show 0 ≤ k ∧ k < 0 + min xs.length ys.length ∧ k < cap by omega),
            read_filled ys rcap _ hrcap]
          simp
        · intro k h3 h4
          rw [getElem?_destroy_n, hlen]
          by_cases h5 : k < xs.length
          · rw [if_pos (by omega)]
          · rw [if_neg (by omega), getElem?_copy_n, length_filled xs cap hcap,
              if_neg (show ¬ (0 ≤ k ∧ k < 0 + min xs.length ys.length ∧ k < cap) by omega),
              getElem?_filled xs cap k hcap, if_neg h5, if_pos h4]
      rw [hfin]
      exact ⟨rfl, rfl⟩
    · rw [if_neg h2]
      have h := uninitialized_copy_loop_ok E (filled ys rcap) xs.length xs.length 0
        (ys.length - xs.length)
        (copy_n (filled ys rcap) 0 (min xs.length ys.length) (filled xs cap) 0)
        (fun j _ _ x hx => hok x (by
          rw [read_filled ys rcap _ hrcap] at hx
          exact List.getElem?_mem hx))
      simp only [uninitialized_copy_n]
      rw [h.1]
      simp only [Bool.false_eq_true, if_false, RawMemory.store_owning]
      have hfin : (uninitialized_copy_loop E (filled ys rcap) xs.length xs.length 0
          (ys.length - xs.length)
          (copy_n (filled ys rcap) 0 (min xs.length ys.length) (filled xs cap) 0)).2 =
          filled ys cap := by
        apply eq_filled _ _ cap (by rw [length_uninitialized_copy_loop, hlen]) (by omega)
        · intro k hk
          rw [h.2 k, hlen]
          by_cases h3 : k < xs.length
          · rw [if_neg (by omega), getElem?_copy_n, length_filled xs cap hcap,
              if_pos (show 0 ≤ k ∧ k < 0 + min xs.length ys.length ∧ k < cap by omega),
              read_filled ys rcap _ hrcap]
            simp
          · rw [if_pos (by omega), read_filled ys rcap _ hrcap]
            congr 2
            omega
        · intro k h3 h4
          rw [h.2 k, hlen, if_neg (by omega), getElem?_copy_n, length_filled xs cap hcap,
            if_neg (show ¬ (0 ≤ k ∧ k < 0 + min xs.length ys.length ∧ k < cap) by omega),
            getElem?_filled xs cap k hcap, if_neg (by omega), if_pos h4]
      rw [hfin]
      exact ⟨rfl, trivial⟩

theorem assign_copy_throws (E : ElemType T) (xs ys : List T) (cap rcap : Nat)
    (hrcap : ys.length ≤ rcap) (hbig : cap < ys.length)
    (k : Nat) (e : T) (hk : ys[k]? = some e) (hthrow : E.copy_throws e = true) :
    (holding xs cap).assign_copy E (holding ys rcap) =
      ⟨holding xs cap, none, some (RawMemory.ctor ys.length)⟩ := by
  unfold assign_copy
  have hrsz : (holding ys rcap).size_ = ys.length := rfl
  have hcp : (holding xs cap).data_.Capacity = cap := rfl
  rw [hrsz, hcp, if_pos hbig, ctor_copy_throws E ys rcap hrcap k e hk hthrow]

end Ops4
end Vector

section Claims6
variable {T : Type}
open Vector

/-- C11. Copy assignment `a = rhs` of distinct vectors when no copy of an
element of `rhs` throws: the call returns, `a` has the elements and the size of
`rhs`, and its capacity is `rhs.Size()` if that exceeded the old capacity and
the old capacity otherwise; `rhs` is only read. Self-assignment leaves `a` as it
is. -/
theorem C11_copy_assignment (E : ElemType T) (xs ys : List T) (cap rcap : Nat)
    (hcap : xs.length ≤ cap) (hrcap : ys.length ≤ rcap)
    (hok : ∀ y ∈ ys, E.copy_throws y = false) :
    ((holding xs cap).assign_copy E (holding ys rcap)).ret = some () ∧
    ((holding xs cap).assign_copy E (holding ys rcap)).self.toList = (holding ys rcap).toList ∧
    ((holding xs cap).assign_copy E (holding ys rcap)).self.toList = ys ∧
    ((holding xs cap).assign_copy E (holding ys rcap)).self.Size = ys.length ∧
    ((holding xs cap).assign_copy E (holding ys rcap)).self.Capacity =
      (if ys.length > cap then ys.length else cap) ∧
    ((holding xs cap).assign_copy E (holding ys rcap)).self =
      holding ys (if ys.length > cap then ys.length else cap) ∧
    (holding xs cap).assign_copy_self = holding xs cap := by
  have h := assign_copy_holding E xs ys cap rcap hcap hrcap hok
  have hle : ys.length ≤ (if ys.length > cap then ys.length else cap) := by
    split <;> omega
  rw [h.1, h.2, toList_holding ys rcap hrcap, toList_holding ys _ hle]
  exact ⟨rfl, rfl, rfl, rfl, rfl, rfl, rfl⟩

/-- C11 at concrete inputs: assignment that reallocates, one that appends in
place and one that drops the surplus tail. -/
theorem C11_copy_assignment_witness :
    ((holding [1, 2] 2).assign_copy int_like (holding [5, 6, 7] 4)).self = holding [5, 6, 7] 3 ∧
    ((holding [1, 2] 4).assign_copy int_like (holding [5, 6, 7] 3)).self = holding [5, 6, 7] 4 ∧
    ((holding [1, 2, 3] 4).assign_copy int_like (holding [5] 1)).self = holding [5] 4 :=
  ⟨(C11_copy_assignment int_like [1, 2] [5, 6, 7] 2 4 (by decide) (by decide)
      (fun _ _ => rfl)).2.2.2.2.2.1,
    (C11_copy_assignment int_like [1, 2] [5, 6, 7] 4 3 (by decide) (by decide)
      (fun _ _ => rfl)).2.2.2.2.2.1,
    (C11_copy_assignment int_like [1, 2, 3] [5] 4 1 (by decide) (by decide)
      (fun _ _ => rfl)).2.2.2.2.2.1⟩

/-- C12. Copy assignment `a = rhs` with `rhs.Size() > a.Capacity()` when copying
the `k`-th element of `rhs` throws: the failure is reported and `a` (buffer,
elements, size, capacity) is exactly as before; `rhs` is only read. The
temporary's storage is released with every slot uninitialized. -/
theorem C12_copy_assignment_strong (E : ElemType T) (xs ys : List T) (cap rcap k : Nat) (e : T)
    (hrcap : ys.length ≤ rcap) (hbig : (holding ys rcap).Size > (holding xs cap).Capacity)
    (_hk1 : 1 ≤ k) (_hk2 : k ≤ ys.length)
    (hk : ys[k - 1]? = some e) (hthrow : E.copy_throws e = true) :
    ((holding xs cap).assign_copy E (holding ys rcap)).ret = none ∧
    ((holding xs cap).assign_copy E (holding ys rcap)).self = holding xs cap ∧
    ((holding xs cap).assign_copy E (holding ys rcap)).released =
      some (RawMemory.ctor ys.length) := by
  rw [assign_copy_throws E xs ys cap rcap hrcap hbig (k - 1) e hk hthrow]
  exact ⟨rfl, rfl, rfl⟩

/-- C12 at a concrete input: `a = [1]` with capacity 1, `rhs = [5, 13, 7]`, and
copying 13 throws. -/
theorem C12_copy_assignment_strong_witness :
    ((holding [1] 1).assign_copy (throwing_copy 13) (holding [5, 13, 7] 3)).ret = none ∧
    ((holding [1] 1).assign_copy (throwing_copy 13) (holding [5, 13, 7] 3)).self =
      holding [1] 1 :=
  have h := C12_copy_assignment_strong (throwing_copy 13) [1] [5, 13, 7] 1 3 2 13
    (by decide) (by decide) (by decide) (by decide) rfl rfl
  ⟨h.1, h.2.1⟩

end Claims6

section Claims7
variable {T : Type}
open Vector

/-- C15. `a.Swap(b)` gives `a` the buffer, elements, size and capacity `b` had
and gives `b` those `a` had; vectors of sizes 5 and 2 end with sizes 2 and 5,
each holding the other's former elements in order. -/
theorem C15_Swap (a b : Vector T) :
    (a.Swap b).1 = b ∧ (a.Swap b).2 = a ∧
    (a.Swap b).1.toList = b.toList ∧ (a.Swap b).1.Size = b.Size ∧
    (a.Swap b).1.Capacity = b.Capacity ∧
    (a.Swap b).2.toList = a.toList ∧ (a.Swap b).2.Size = a.Size ∧
    (a.Swap b).2.Capacity = a.Capacity ∧
    ((holding [1, 2, 3, 4, 5] 5).Swap (holding [6, 7] 2)).1.Size = 2 ∧
    ((holding [1, 2, 3, 4, 5] 5).Swap (holding [6, 7] 2)).2.Size = 5 ∧
    ((holding [1, 2, 3, 4, 5] 5).Swap (holding [6, 7] 2)).1.toList = [6, 7] ∧
    ((holding [1, 2, 3, 4, 5] 5).Swap (holding [6, 7] 2)).2.toList = [1, 2, 3, 4, 5] :=
  ⟨rfl, rfl, rfl, rfl, rfl, rfl, rfl, rfl, rfl, rfl, by decide, by decide⟩

/-- C16. The move constructor `Vector b(std::move(other))` gives `b` the buffer,
elements, size and capacity `other` had and leaves `other` with size 0,
capacity 0 and a null buffer. -/
theorem C16_move_constructor (other : Vector T) :
    (ctor_move other).1 = other ∧
    (ctor_move other).1.toList = other.toList ∧
    (ctor_move other).1.Size = other.Size ∧
    (ctor_move other).1.Capacity = other.Capacity ∧
    (ctor_move other).2.Size = 0 ∧ (ctor_move other).2.Capacity = 0 ∧
    (ctor_move other).2.data_.buffer_ = Buffer.null ∧
    (ctor_move other).2 = ctor_default :=
  ⟨rfl, rfl, rfl, rfl, rfl, rfl, rfl, rfl⟩

/-- C17 on the code: `dst = std::move(src)` for `dst = RawMemory(2)` and
`src = RawMemory(3)`. `dst` gets the buffer and the capacity of `src`, but `src`
is left with capacity 2 and the pointer `dst` had, whose storage was handed to
`Deallocate`: it is neither null nor of capacity 0. -/
theorem C17_source_not_emptied :
    (RawMemory.assign_move (RawMemory.ctor 2) (RawMemory.ctor 3 : RawMemory Nat)).1 =
      RawMemory.ctor 3 ∧
    (RawMemory.assign_move (RawMemory.ctor 2) (RawMemory.ctor 3 : RawMemory Nat)).2 =
      ⟨Buffer.freed, 2⟩ ∧
    (RawMemory.assign_move (RawMemory.ctor 2) (RawMemory.ctor 3 : RawMemory Nat)).2.buffer_ ≠
      Buffer.null ∧
    (RawMemory.assign_move (RawMemory.ctor 2) (RawMemory.ctor 3 : RawMemory Nat)).2.Capacity ≠
      0 := by
  decide

/-- C19. `PopBack()` on a non-empty vector with elements `xs` leaves the
elements `xs` without the last, size one less and the capacity unchanged;
`PushBack(x)` followed by `PopBack()` restores elements and size. The
`PushBack` relocates only when the vector is full, and only then the relocation
is required not to throw. -/
theorem C19_PopBack (E : ElemType T) (xs : List T) (cap : Nat) (x : T)
    (hcap : xs.length ≤ cap) :
    (0 < xs.length →
      (holding xs cap).PopBack.toList = xs.dropLast ∧
      (holding xs cap).PopBack.Size = xs.length - 1 ∧
      (holding xs cap).PopBack.Capacity = cap ∧
      (holding xs cap).PopBack = holding xs.dropLast cap) ∧
    ((xs.length = cap → E.relocatable xs) →
      ((holding xs cap).PushBack E x).ret = some () ∧
      ((holding xs cap).PushBack E x).self.PopBack.toList = xs ∧
      ((holding xs cap).PushBack E x).self.PopBack.Size = xs.length) := by
  refine ⟨fun hpos => ?_, fun hok => ?_⟩
  · rw [PopBack_holding xs cap hcap hpos,
      toList_holding _ _ (by rw [List.length_dropLast]; omega)]
    refine ⟨rfl, ?_, rfl, rfl⟩
    show xs.dropLast.length = xs.length - 1
    exact List.length_dropLast xs
  · have h := PushBack_holding E xs cap x hcap hok
    have hle : (xs ++ [x]).length ≤ (if xs.length = cap then max 1 (2 * cap) else cap) := by
      rw [List.length_append, List.length_singleton]
      split <;> omega
    rw [h.1, h.2, PopBack_holding _ _ hle (by simp), List.dropLast_concat,
      toList_holding xs _ (by split <;> omega)]
    exact ⟨rfl, rfl, rfl⟩

/-- C19 at concrete inputs: `PopBack()` on `[1, 2, 3]` with capacity 4, and
`PushBack(5)` then `PopBack()` on `[13]` with capacity 4 for an element type
whose copy of 13 throws. -/
theorem C19_PopBack_witness :
    (holding [1, 2, 3] 4).PopBack = holding [1, 2] 4 ∧
      ((holding [13] 4).PushBack (throwing_copy 13) 5).self.PopBack.toList = [13] :=
  ⟨((C19_PopBack int_like [1, 2, 3] 4 0 (by decide)).1 (by decide)).2.2.2,
    ((C19_PopBack (throwing_copy 13) [13] 4 5 (by decide)).2
      (fun h => absurd h (by decide))).2.1⟩

end Claims7

section Claims8
variable {T : Type}
open Vector

theorem EmplaceBack_capacity (E : ElemType T) (v : Vector T) (x : T) :
    (v.EmplaceBack E x).self.data_.capacity_ = v.data_.capacity_ ∨
    (v.size_ = v.data_.capacity_ ∧
      (v.EmplaceBack E x).self.data_.capacity_ = max 1 (2 * v.data_.capacity_)) := by
  unfold EmplaceBack
  have hcap : v.Capacity = v.data_.capacity_ := rfl
  by_cases h1 : v.size_ = v.Capacity
  · rw [if_pos h1]
    dsimp only [TransferObjectsN_all]
    generalize hnd : ((RawMemory.ctor (if v.size_ = 0 then 1 else v.size_ * 2)).store
      (construct_at (RawMemory.ctor (if v.size_ = 0 then 1 else v.size_ * 2)).GetAddress
        v.size_ x) : RawMemory T) = nd
    have hndc : nd.capacity_ = if v.size_ = 0 then 1 else v.size_ * 2 := by
      rw [← hnd]; rfl
    have hc := TransferObjectsN_capacity E v.data_ nd 0 v.size_ 0
    by_cases ht : (TransferObjectsN E v.data_ 0 v.size_ nd 0).threw = true
    · rw [if_pos ht]
      dsimp only
      exact Or.inl hc.1
    · rw [if_neg ht]
      dsimp only [RawMemory.Swap]
      rw [hc.2, hndc]
      right
      refine ⟨by omega, ?_⟩
      split <;> omega
  · rw [if_neg h1]
    exact Or.inl rfl

theorem Emplace_capacity (E : ElemType T) (v : Vector T) (i : Nat) (x : T) :
    (v.Emplace E i x).self.data_.capacity_ = v.data_.capacity_ ∨
    (v.size_ = v.data_.capacity_ ∧
      (v.Emplace E i x).self.data_.capacity_ = max 1 (2 * v.data_.capacity_)) := by
  unfold Emplace
  by_cases h0 : i = v.size_
  · rw [if_pos h0]
    exact EmplaceBack_capacity E v x
  · rw [if_neg h0]
    have hcap : v.Capacity = v.data_.capacity_ := rfl
    by_cases h1 : v.size_ = v.Capacity
    · rw [if_pos h1]
      have hndc : (Emplace_new_data v i x).capacity_ = if v.size_ = 0 then 1 else v.size_ * 2 :=
        rfl
      have hc1 := TransferObjectsN_capacity E v.data_ (Emplace_new_data v i x) 0 i 0
      have hc2 := TransferObjectsN_capacity E (Emplace_try_first E v i x).data
        (Emplace_try_first E v i x).new_data i (v.size_ - i) (i + 1)
      have e1 : Emplace_try_first E v i x
          = TransferObjectsN E v.data_ 0 i (Emplace_new_data v i x) 0 := rfl
      have e2 : Emplace_try_second E v i x
          = TransferObjectsN E (Emplace_try_first E v i x).data i (v.size_ - i)
              (Emplace_try_first E v i x).new_data (i + 1) := rfl
      dsimp only
      by_cases ht : (Emplace_try_first E v i x).threw = true
      · rw [if_pos ht]
        dsimp only
        rw [e1, hc1.1]
        exact Or.inl rfl
      · rw [if_neg ht]
        by_cases hu : (Emplace_try_second E v i x).threw = true
        · rw [if_pos hu]
          dsimp only
          rw [e2, hc2.1, e1, hc1.1]
          exact Or.inl rfl
        · rw [if_neg hu]
          dsimp only [RawMemory.Swap]
          rw [e2, hc2.2, e1, hc1.2, hndc]
          right
          refine ⟨by omega, ?_⟩
          split <;> omega
    · rw [if_neg h1]
      exact Or.inl rfl

theorem Resize_capacity (E : ElemType T) (v : Vector T) (n : Nat) :
    (v.Resize E n).self.data_.capacity_ = v.data_.capacity_ ∨
    (v.data_.capacity_ < n ∧ (v.Resize E n).self.data_.capacity_ = n) := by
  unfold Resize
  have hr := Reserve_numeric E v n
  by_cases h1 : n < v.size_
  · rw [if_pos h1]
    exact Or.inl rfl
  · rw [if_neg h1]
    by_cases h2 : n > v.size_
    · rw [if_pos h2]
      dsimp only
      cases hret : (v.Reserve E n).ret with
      | none =>
        dsimp only
        exact Or.inl (hr.2.1 hret)
      | some u =>
        dsimp only [RawMemory.store]
        rw [hr.2.2 (by rw [hret]; simp)]
        by_cases h3 : v.data_.capacity_ < n
        · exact Or.inr ⟨h3, by omega⟩
        · exact Or.inl (by omega)
    · rw [if_neg h2]
      exact Or.inl rfl

/-- C20. Capacity never shrinks under `Reserve`, `Resize`, `PushBack`,
`EmplaceBack`, `Insert`, `Emplace`, `Erase` and `PopBack`, whether the call
returns or throws; it is strictly greater after the call only for `Reserve(n)`
or `Resize(n)` with `n > capacity` and for an insertion into a full vector. -/
theorem C20_capacity_monotone (E : ElemType T) (v : Vector T) :
    (∀ n, v.Capacity ≤ (v.Reserve E n).self.Capacity ∧
      (v.Capacity < (v.Reserve E n).self.Capacity → v.Capacity < n)) ∧
    (∀ n, v.Capacity ≤ (v.Resize E n).self.Capacity ∧
      (v.Capacity < (v.Resize E n).self.Capacity → v.Capacity < n)) ∧
    (∀ x, v.Capacity ≤ (v.PushBack E x).self.Capacity ∧
      (v.Capacity < (v.PushBack E x).self.Capacity → v.Size = v.Capacity)) ∧
    (∀ x, v.Capacity ≤ (v.EmplaceBack E x).self.Capacity ∧
      (v.Capacity < (v.EmplaceBack E x).self.Capacity → v.Size = v.Capacity)) ∧
    (∀ i x, i ≤ v.Size →
      (v.Capacity ≤ (v.Emplace E i x).self.Capacity ∧
        (v.Capacity < (v.Emplace E i x).self.Capacity → v.Size = v.Capacity)) ∧
      (v.Capacity ≤ (v.Insert E i x).self.Capacity ∧
        (v.Capacity < (v.Insert E i x).self.Capacity → v.Size = v.Capacity))) ∧
    (∀ i, i < v.Size → (v.Erase E i).self.Capacity = v.Capacity) ∧
    (0 < v.Size → v.PopBack.Capacity = v.Capacity) := by
  refine ⟨fun n => ?_, fun n => ?_, fun x => ?_, fun x => ?_, fun i x _ => ?_,
    fun i _ => rfl, fun _ => rfl⟩
  · have hr := Reserve_numeric E v n
    show v.data_.capacity_ ≤ (v.Reserve E n).self.data_.capacity_ ∧
      (v.data_.capacity_ < (v.Reserve E n).self.data_.capacity_ → v.data_.capacity_ < n)
    cases hret : (v.Reserve E n).ret with
    | none => rw [hr.2.1 hret]; omega
    | some u => rw [hr.2.2 (by rw [hret]; simp)]; omega
  · have hr := Resize_capacity E v n
    show v.data_.capacity_ ≤ (v.Resize E n).self.data_.capacity_ ∧
      (v.data_.capacity_ < (v.Resize E n).self.data_.capacity_ → v.data_.capacity_ < n)
    omega
  · have hr := EmplaceBack_capacity E v x
    rw [(PushBack_eq_EmplaceBack E v x).1]
    show v.data_.capacity_ ≤ (v.EmplaceBack E x).self.data_.capacity_ ∧
      (v.data_.capacity_ < (v.EmplaceBack E x).self.data_.capacity_ →
        v.size_ = v.data_.capacity_)
    omega
  · have hr := EmplaceBack_capacity E v x
    show v.data_.capacity_ ≤ (v.EmplaceBack E x).self.data_.capacity_ ∧
      (v.data_.capacity_ < (v.EmplaceBack E x).self.data_.capacity_ →
        v.size_ = v.data_.capacity_)
    omega
  · have hr := Emplace_capacity E v i x
    have key : v.data_.capacity_ ≤ (v.Emplace E i x).self.data_.capacity_ ∧
        (v.data_.capacity_ < (v.Emplace E i x).self.data_.capacity_ →
          v.size_ = v.data_.capacity_) := by omega
    exact ⟨key, key⟩

/-- C20 at a concrete input: `Erase` on `[1, 2, 3]` keeps capacity 4. -/
theorem C20_capacity_monotone_witness :
    ((holding [1, 2, 3] 4).Erase int_like 1).self.Capacity = 4 :=
  (C20_capacity_monotone int_like (holding [1, 2, 3] 4)).2.2.2.2.2.1 1 (by decide)

end Claims8

section PlatformLemmas
variable {T : Type}

theorem Platform.request_of_grants (P : Platform) (n : Nat) (hn : n ≠ 0) (h : P.grants n) :
    P.request n = n * P.sizeof_T ∧ P.room n = n ∧ P.new_throws (P.request n) = false := by
  rcases h with h | ⟨hpos, hlt, hnew⟩
  · exact absurd h hn
  · have hr : P.request n = n * P.sizeof_T := Nat.mod_eq_of_lt hlt
    refine ⟨hr, ?_, by rw [hr]; exact hnew⟩
    unfold Platform.room
    rw [hr]
    exact Nat.mul_div_cancel n hpos

theorem Platform.room_le (P : Platform) (n : Nat) : P.room n ≤ n := by
  unfold Platform.room Platform.request
  rcases Nat.eq_zero_or_pos P.sizeof_T with h0 | hpos
  · rw [h0]; simp
  · calc n * P.sizeof_T % 2 ^ 64 / P.sizeof_T ≤ n * P.sizeof_T / P.sizeof_T :=
        Nat.div_le_div_right (Nat.mod_le _ _)
      _ = n := Nat.mul_div_cancel n hpos

namespace RawMemory

theorem ctor_on_granted (P : Platform) (n : Nat) (h : P.grants n) :
    (ctor_on P n : Option (RawMemory T)) = some (ctor n) := by
  unfold ctor_on Allocate ctor
  by_cases hn : n = 0
  · subst hn
    simp
  · have hg := Platform.request_of_grants P n hn h
    simp [hn, hg.2.1, hg.2.2]

theorem ctor_on_throws (P : Platform) (n : Nat) (hn : n ≠ 0)
    (h : P.new_throws (P.request n) = true) :
    (ctor_on P n : Option (RawMemory T)) = none := by
  unfold ctor_on Allocate
  simp [hn, h]

theorem ctor_on_block (P : Platform) (n : Nat) (hn : n ≠ 0)
    (h : P.new_throws (P.request n) = false) :
    (ctor_on P n : Option (RawMemory T)) =
      some ⟨Buffer.block (List.replicate (P.room n) none), n⟩ := by
  unfold ctor_on Allocate
  simp [hn, h]

end RawMemory

namespace Vector

theorem ctor_size_on_granted (P : Platform) (E : ElemType T) (n : Nat) (h : P.grants n) :
    ctor_size_on P E n = some (ctor_size E n) := by
  unfold ctor_size_on ctor_size
  rw [RawMemory.ctor_on_granted P n h]

theorem ctor_size_on_throws (P : Platform) (E : ElemType T) (n : Nat) (hn : n ≠ 0)
    (h : P.new_throws (P.request n) = true) :
    ctor_size_on P E n = none := by
  unfold ctor_size_on
  rw [RawMemory.ctor_on_throws P n hn h]

theorem Reserve_on_granted (P : Platform) (E : ElemType T) (v : Vector T) (n : Nat)
    (h : v.Capacity < n → P.grants n) :
    v.Reserve_on P E n = v.Reserve E n := by
  unfold Reserve_on Reserve
  by_cases hn : n ≤ v.data_.Capacity
  · rw [if_pos hn, if_pos hn]
  · rw [if_neg hn, if_neg hn, RawMemory.ctor_on_granted P n (h (Nat.lt_of_not_le hn))]

theorem Reserve_on_throws (P : Platform) (E : ElemType T) (v : Vector T) (n : Nat)
    (hn : v.Capacity < n) (h : P.new_throws (P.request n) = true) :
    v.Reserve_on P E n = ⟨v, none, none⟩ := by
  unfold Reserve_on
  have hn' : ¬ n ≤ v.data_.Capacity := Nat.not_le_of_lt hn
  rw [if_neg hn', RawMemory.ctor_on_throws P n (by omega) h]

theorem Resize_on_granted (P : Platform) (E : ElemType T) (v : Vector T) (n : Nat)
    (h : v.Capacity < n → P.grants n) :
    v.Resize_on P E n = v.Resize E n := by
  unfold Resize_on Resize
  rw [Reserve_on_granted P E v n h]

theorem Resize_on_throws (P : Platform) (E : ElemType T) (v : Vector T) (n : Nat)
    (hsz : v.Size ≤ v.Capacity) (hn : v.Capacity < n)
    (h : P.new_throws (P.request n) = true) :
    v.Resize_on P E n = ⟨v, none, none⟩ := by
  unfold Resize_on
  have hsz' : v.size_ ≤ v.Capacity := hsz
  rw [if_neg (show ¬ n < v.size_ by omega), if_pos (show n > v.size_ by omega),
    Reserve_on_throws P E v n hn h]

theorem TransferObjectsN_ok_block (E : ElemType T) (s d : Slots T) (c n first size d_first : Nat)
    (hs : s.length = c)
    (hok : E.relocates_by_move = true ∨
      ∀ j, j < size → ∀ x, read s (first + j) = some x → E.copy_throws x = false) :
    ∃ s' d', TransferObjectsN E (RawMemory.owning s c) first size ⟨Buffer.block d, n⟩ d_first
        = ⟨false, RawMemory.owning s' c, ⟨Buffer.block d', n⟩⟩ ∧
      s'.length = c ∧ d'.length = d.length ∧
      (∀ k, d'[k]? = if d_first ≤ k ∧ k < d_first + size ∧ k < d.length
        then some (read s (first + (k - d_first))) else d[k]?) := by
  unfold TransferObjectsN
  have hga : (⟨Buffer.block d, n⟩ : RawMemory T).GetAddress = d := rfl
  by_cases h0 : size = 0
  · subst h0
    refine ⟨s, d, by simp, hs, rfl, fun k => ?_⟩
    rw [if_neg (by omega)]
  · rw [if_neg h0, RawMemory.GetAddress_owning s c hs, hga]
    by_cases hm : E.relocates_by_move = true
    · have hm2 : (E.nothrow_move_constructible || !E.copy_constructible) = true := hm
      rw [if_pos hm2]
      refine ⟨_, _, by simp only [RawMemory.store_owning]; rfl, ?_, ?_, fun k => ?_⟩
      · simp [uninitialized_move_n, hs]
      · simp [uninitialized_move_n]
      · simp only [uninitialized_move_n]
        rw [uninitialized_move_loop_dst]
        simp
    · have hm2 : ¬ (E.nothrow_move_constructible || !E.copy_constructible) = true := hm
      rw [if_neg hm2]
      have hc := hok.resolve_left hm
      have h := uninitialized_copy_loop_ok E s first d_first 0 size d
        (fun j _ h2 => hc j (by omega))
      refine ⟨s, (uninitialized_copy_n E s first size d d_first).2, ?_, hs, ?_, fun k => ?_⟩
      · simp only [uninitialized_copy_n, h.1]
        rfl
      · simp [uninitialized_copy_n]
      · simp only [uninitialized_copy_n]
        rw [h.2 k]
        simp

/-- The member `Reserve(n)` with `n > capacity` when `operator new` accepts the
request and the storage has room for the elements, whether or not the product
`n * sizeof(T)` wrapped. -/
theorem Reserve_on_room (P : Platform) (E : ElemType T) (xs : List T) (cap n : Nat)
    (hcap : xs.length ≤ cap) (hn : cap < n) (hnew : P.new_throws (P.request n) = false)
    (hroom : xs.length ≤ P.room n) (hok : E.relocatable xs) :
    ((holding xs cap).Reserve_on P E n).self =
        ⟨⟨Buffer.block (filled xs (P.room n)), n⟩, xs.length⟩ ∧
      ((holding xs cap).Reserve_on P E n).ret = some () := by
  unfold Reserve_on
  have hsz : (holding xs cap).size_ = xs.length := rfl
  have hdata : (holding xs cap).data_ = RawMemory.owning (filled xs cap) cap := rfl
  have hcp : (holding xs cap).data_.Capacity = cap := rfl
  rw [hcp, if_neg (Nat.not_le_of_lt hn), RawMemory.ctor_on_block P n (by omega) hnew]
  dsimp only [TransferObjectsN_all]
  rw [hsz, hdata]
  obtain ⟨s', d', heq, hs', hd', hget⟩ :=
    TransferObjectsN_ok_block E (filled xs cap) (List.replicate (P.room n) none) cap n 0
      xs.length 0 (length_filled xs cap hcap)
      (relocatable_reads E xs cap 0 xs.length hcap hok)
  rw [heq]
  simp only [Bool.false_eq_true, if_false, RawMemory.Swap_fst]
  have hdl : d'.length = P.room n := by rw [hd']; simp
  have hfin : d' = filled xs (P.room n) := by
    apply eq_filled d' xs (P.room n) hdl hroom
    · intro k hk
      rw [hget k, List.length_replicate,
        if_pos (show 0 ≤ k ∧ k < 0 + xs.length ∧ k < P.room n by omega),
        read_filled xs cap _ hcap]
      simp
    · intro k h1 h2
      rw [hget k, List.length_replicate,
        if_neg (show ¬ (0 ≤ k ∧ k < 0 + xs.length ∧ k < P.room n) by omega),
        List.getElem?_replicate, if_pos h2]
  rw [hfin]
  exact ⟨rfl, trivial⟩

end Vector
end PlatformLemmas

section Claims9
variable {T : Type}
open Vector

end Claims9

section PlatformNumeric
variable {T : Type}
open Vector

/-- On a platform of 4-byte objects `Allocate(2 ^ 62)` asks `operator new` for
0 bytes, and `Allocate(2 ^ 61)` for `2 ^ 63` bytes, which is refused. -/
theorem RawMemory.Allocate_int32 :
    (RawMemory.Allocate int32_platform (2 ^ 62) : Option (Buffer Nat)) =
      some (Buffer.block []) ∧
    (RawMemory.Allocate int32_platform (2 ^ 61) : Option (Buffer Nat)) = none ∧
    (RawMemory.Allocate int32_platform 3 : Option (Buffer Nat)) =
      some (Buffer.block [none, none, none]) ∧
    (RawMemory.Allocate int32_platform 0 : Option (Buffer Nat)) = some Buffer.null := by
  refine ⟨?_, ?_, ?_, ?_⟩ <;> decide

/-- The owner `RawMemory(n)` builds on a platform reports capacity `n`, whatever
storage `operator new` returned. -/
theorem RawMemory.ctor_on_capacity (P : Platform) (n : Nat) (m : RawMemory T)
    (h : RawMemory.ctor_on P n = some m) : m.capacity_ = n := by
  unfold RawMemory.ctor_on at h
  cases ha : (RawMemory.Allocate P n : Option (Buffer T)) with
  | none => rw [ha] at h; cases h
  | some b =>
    rw [ha] at h
    cases h
    rfl

/-- The vector `Vector(n)` builds on a platform has size and capacity `n`. -/
theorem Vector.ctor_size_on_numeric (P : Platform) (E : ElemType T) (n : Nat) (v : Vector T)
    (h : ctor_size_on P E n = some v) : v.size_ = n ∧ v.data_.capacity_ = n := by
  unfold ctor_size_on at h
  cases hc : (RawMemory.ctor_on P n : Option (RawMemory T)) with
  | none => rw [hc] at h; cases h
  | some m =>
    rw [hc] at h
    cases h
    exact ⟨rfl, RawMemory.ctor_on_capacity P n m hc⟩

/-- Size and capacity after `Reserve(n)` on a platform: the size is kept; the
capacity is kept when the call throws and is `max(capacity, n)` when it
returns. -/
theorem Vector.Reserve_on_numeric (P : Platform) (E : ElemType T) (v : Vector T) (n : Nat) :
    (v.Reserve_on P E n).self.size_ = v.size_ ∧
    ((v.Reserve_on P E n).ret = none →
      (v.Reserve_on P E n).self.data_.capacity_ = v.data_.capacity_) ∧
    ((v.Reserve_on P E n).ret ≠ none →
      (v.Reserve_on P E n).self.data_.capacity_ = max v.data_.capacity_ n) := by
  unfold Reserve_on
  by_cases h1 : n ≤ v.data_.Capacity
  · have h1' : n ≤ v.data_.capacity_ := h1
    rw [if_pos h1]
    dsimp only
    exact ⟨rfl, fun _ => rfl, fun _ => by omega⟩
  · have h1' : ¬ n ≤ v.data_.capacity_ := h1
    rw [if_neg h1]
    cases hc : (RawMemory.ctor_on P n : Option (RawMemory T)) with
    | none =>
      dsimp only
      exact ⟨rfl, fun _ => rfl, fun h => absurd rfl h⟩
    | some m =>
      have hn : m.capacity_ = n := RawMemory.ctor_on_capacity P n m hc
      have hcap := TransferObjectsN_capacity E v.data_ m 0 v.size_ 0
      dsimp only [TransferObjectsN_all]
      by_cases ht : (TransferObjectsN E v.data_ 0 v.size_ m 0).threw = true
      · rw [if_pos ht]
        dsimp only
        exact ⟨rfl, fun _ => hcap.1, fun h => absurd rfl h⟩
      · rw [if_neg ht]
        dsimp only [RawMemory.Swap]
        refine ⟨rfl, fun h => by simp at h, fun _ => ?_⟩
        rw [hcap.2, hn]
        omega

/-- After `Resize(n)` on a platform the size does not exceed the capacity and
the capacity has not decreased, whether the call returns or throws. -/
theorem Vector.Resize_on_numeric (P : Platform) (E : ElemType T) (v : Vector T) (n : Nat)
    (h : v.size_ ≤ v.data_.capacity_) :
    (v.Resize_on P E n).self.size_ ≤ (v.Resize_on P E n).self.data_.capacity_ ∧
    v.data_.capacity_ ≤ (v.Resize_on P E n).self.data_.capacity_ := by
  unfold Resize_on
  have hr := Reserve_on_numeric P E v n
  by_cases h1 : n < v.size_
  · rw [if_pos h1]
    dsimp only [RawMemory.store]
    omega
  · rw [if_neg h1]
    by_cases h2 : n > v.size_
    · rw [if_pos h2]
      dsimp only
      cases hret : (v.Reserve_on P E n).ret with
      | none =>
        dsimp only
        rw [hr.1, hr.2.1 hret]
        omega
      | some u =>
        dsimp only [RawMemory.store]
        rw [hr.2.2 (by rw [hret]; simp)]
        omega
    · rw [if_neg h2]
      dsimp only
      omega

end PlatformNumeric

end AdvVec
